import Mathlib

/-!
# logparsing: extraction of a ZIP/TAR archive and keyword scan of the extracted tree

A shallow embedding of `main.go`.

Conventions of the embedding.
* A Go `string` is the list of its runes (`GoString`).  File contents are text,
  held the same way; byte lengths are UTF-8 lengths.
* The file system is an association list from absolute, lexically clean paths to
  nodes; a path is the list of its components below `/`.
* Every library call the program makes is a function of an explicit `World`
  (file system, standard output, log of calls, count of failed file-system
  operations) and of an immutable `Env` (what the outside world supplies:
  archive contents, injected failures, the Unicode case table, the names
  `os.MkdirTemp` draws).
* Permission bits are not modelled; the failures they cause are among the
  injected ones.
-/

namespace LogParsing

/-! ## Strings -/

/-- A Go string, as the sequence of its runes. -/
abbrev GoString := List Char

/-- Length in bytes of the UTF-8 encoding (Go's `len`). -/
def utf8Len (s : GoString) : Nat := (s.map Char.utf8Size).sum

/-- Model of `strings.Contains(s, substr)`: `substr` starts at some position of `s`. -/
def Contains : GoString → GoString → Bool
  | [], substr => substr.isPrefixOf []
  | c :: s, substr => substr.isPrefixOf (c :: s) || Contains s substr

/-- Model of `strings.ToLower`.  A string of ASCII runes only is mapped byte by byte
(`'A'..'Z'` to `'a'..'z'`); any other string is mapped rune by rune through
`unicode.ToLower`, whose case table is not part of the program and is taken as
the parameter `unicodeToLower`. -/
def ToLower (unicodeToLower : Char → Char) (s : GoString) : GoString :=
  if s.all (fun c => c.toNat < 128) then s.map Char.toLower else s.map unicodeToLower

/-- Loop of `filepath.Ext`, over the reversed path: walks back from the end
until a separator, returning the suffix that starts at the first dot met. -/
def extLoop : List Char → GoString → GoString
  | [], _ => []
  | c :: before, suffix =>
    if c = '/' then []
    else if c = '.' then '.' :: suffix
    else extLoop before (c :: suffix)

/-- Model of `filepath.Ext(path)`: the suffix beginning at the final dot in the final
element of `path`; empty if there is no dot. -/
def Ext (path : GoString) : GoString := extLoop path.reverse []

/-! ## Errors -/

/-- Error values the program can observe. -/
inductive Err where
  /-- The error `ENOENT`. -/
  | notExist
  /-- The error `ENOTDIR`. -/
  | notDir
  /-- The error `EISDIR`. -/
  | isDir
  /-- The error `EEXIST`. -/
  | exist
  /-- The error `bufio.ErrTooLong`, "bufio.Scanner: token too long" -/
  | tooLong
  /-- any other failure reported by the operating system or an archive reader -/
  | other (code : Nat)
  deriving DecidableEq

/-! ## bufio.Scanner with the default split function `ScanLines` -/

/-- Model of `bufio.MaxScanTokenSize`: the largest buffer a default `Scanner` allocates. -/
def MaxScanTokenSize : Nat := 64 * 1024

/-- Model of `dropCR` of package bufio: drops one terminal `\r`. -/
def dropCR (data : GoString) : GoString :=
  if data.getLast? = some '\r' then data.dropLast else data

/-- The tokens a default `bufio.Scanner` delivers on `data` followed by end of
input, and the value of `scanner.Err()` afterwards.  `cur` is the part of the
current line already buffered.  A line ends at `'\n'`; a final unterminated
non-empty line is a token too.  The buffer never grows beyond
`MaxScanTokenSize` bytes, so a line that fills it without a newline in sight
stops the scan with `ErrTooLong`. -/
def scanFrom (cur : GoString) : List Char → List GoString × Option Err
  | [] =>
    if cur = [] then ([], none)
    else if MaxScanTokenSize ≤ utf8Len cur then ([], some Err.tooLong)
    else ([dropCR cur], none)
  | c :: rest =>
    if c = '\n' then
      if MaxScanTokenSize ≤ utf8Len cur then ([], some Err.tooLong)
      else (dropCR cur :: (scanFrom [] rest).1, (scanFrom [] rest).2)
    else scanFrom (cur ++ [c]) rest

/-! ## Paths -/

/-- An absolute, lexically clean path: its components below the root `/`. -/
abbrev Path := List GoString

/-- The path as the program prints it: `/` for the root, else `/a/b/c`. -/
def render (p : Path) : GoString :=
  if p = [] then ['/'] else p.flatMap (fun seg => '/' :: seg)

/-- The components of a slash-separated name (empty components kept). -/
def splitSlash : GoString → List GoString
  | [] => [[]]
  | c :: rest =>
    if c = '/' then [] :: splitSlash rest
    else
      match splitSlash rest with
      | [] => [[c]]
      | seg :: segs => (c :: seg) :: segs

/-- One step of `filepath.Clean` on a rooted path: an empty component or `.`
is dropped, `..` removes the component before it (and is dropped at the root),
anything else is appended. -/
def cleanStep (stack : Path) (seg : GoString) : Path :=
  if seg = [] ∨ seg = ['.'] then stack
  else if seg = ['.', '.'] then stack.dropLast
  else stack ++ [seg]

/-- Model of `filepath.Join(dir, name)` for an absolute clean `dir`: the lexical
cleaning of `dir + "/" + name`. -/
def Join (dir : Path) (name : GoString) : Path :=
  (splitSlash name).foldl cleanStep dir

/-- Model of `filepath.Dir` of an absolute clean path: its parent (the root is its own). -/
def Dir (p : Path) : Path := p.dropLast

/-! ## File system, world, environment -/

/-- A file-system node: a directory, or a regular file with its contents. -/
inductive Node where
  | dir
  | file (data : GoString)
  deriving DecidableEq

/-- The file system: the most recent binding of a path comes first. -/
abbrev FS := List (Path × Node)

/-- What is at `p`; the root always exists and is a directory. -/
def FS.stat (fs : FS) (p : Path) : Option Node :=
  if p = [] then some Node.dir else fs.lookup p

/-- Every bound path has its parent bound to a directory. -/
def FS.WF (fs : FS) : Prop :=
  ∀ x ∈ fs, FS.stat fs x.1.dropLast = some Node.dir

instance (fs : FS) : Decidable (FS.WF fs) := by
  unfold FS.WF; infer_instance

/-- Kinds of file-system objects an archive entry can describe. -/
inductive Kind where
  | regular | dir | symlink | device | fifo | socket
  deriving DecidableEq

/-- One `*zip.File`: its name, the kind its mode bits encode, the error of
`f.Open()` if it fails, the bytes its reader delivers and the error that ends
the delivery if it is not a clean end of data. -/
structure ZipEntry where
  name : GoString
  kind : Kind
  openErr : Option Err
  body : GoString
  readErr : Option Err

/-- Model of `f.FileInfo().IsDir()`: the mode has the directory bit, which archive/zip
sets from the entry's attributes and also whenever the name ends in `/`. -/
def ZipEntry.IsDir (f : ZipEntry) : Bool :=
  decide (f.kind = Kind.dir) || decide (f.name.getLast? = some '/')

/-- One entry of a tar stream as `tr.Next()` and `tr` deliver it. -/
structure TarEntry where
  name : GoString
  typeflag : Char
  body : GoString
  readErr : Option Err

/-- The constant `tar.TypeReg`. -/
def TypeReg : Char := '0'

/-- The constant `tar.TypeDir`. -/
def TypeDir : Char := '5'

/-- A tar stream: the entries `tr.Next()` yields, then `io.EOF` (`none`) or the
error it fails with. -/
structure TarFile where
  entries : List TarEntry
  tail : Option Err

/-- Library and operating-system calls the program makes, as logged. -/
inductive Call where
  | unzip (src : GoString)
  | untar (src : GoString)
  | mkdirTemp (pattern : GoString)
  | mkdirAll (path : Path)
  | create (path : Path)
  | copy (path : Path)
  | stat (path : Path)
  | walk (root : Path)
  | fileOpen (path : Path)
  | removeAll (path : Path)
  deriving DecidableEq

/-- Mutable state: the file system, what was printed on standard output (one
item per `Print` call), the log of calls, and the number of file-system
operations that have failed so far. -/
structure World where
  fs : FS
  out : List GoString
  calls : List Call
  failures : Nat
  deriving DecidableEq

/-- What the outside world supplies. -/
structure Env where
  /-- The case table of `unicode.ToLower`. -/
  unicodeToLower : Char → Char
  /-- On ASCII runes `unicode.ToLower` is the ASCII lower-casing. -/
  unicodeToLower_ascii : ∀ c : Char, c.toNat < 128 → unicodeToLower c = c.toLower
  /-- The text `%v` prints for an error value. -/
  errorText : Err → GoString
  /-- Result of `os.TempDir()`. -/
  tempDir : Path
  /-- The random part `os.MkdirTemp` appends at its n-th attempt. -/
  randomName : Nat → GoString
  /-- Result of `zip.OpenReader`. -/
  zipFile : GoString → Except Err (List ZipEntry)
  /-- Result of `os.Open` followed by `tar.NewReader`. -/
  tarFile : GoString → Except Err TarFile
  /-- Injected failure of `mkdir(2)` at a path (permission denied, disk full). -/
  mkdirFault : Path → Option Err
  /-- Injected failure of creating or truncating a file. -/
  createFault : Path → Option Err
  /-- Injected failure of writing to a file, after so many runes went through. -/
  writeFault : Path → Option (Nat × Err)
  /-- Injected failure of opening a file for reading. -/
  openFault : Path → Option Err
  /-- Injected failure of reading a file, after so many runes were delivered. -/
  readFault : Path → Option (Nat × Err)
  /-- Injected failure of `os.Lstat`. -/
  lstatFault : Path → Option Err
  /-- Injected failure of reading a directory. -/
  readdirFault : Path → Option Err

/-- Model of `fmt.Print*`: appends to standard output. -/
def World.print (w : World) (s : GoString) : World := { w with out := w.out ++ [s] }

/-- Appends a call to the log. -/
def World.log (w : World) (c : Call) : World := { w with calls := w.calls ++ [c] }

/-- Counts a failed file-system operation. -/
def World.fail (w : World) : World := { w with failures := w.failures + 1 }

/-- Replaces the file system. -/
def World.setFS (w : World) (fs : FS) : World := { w with fs := fs }

/-! ## File-system operations -/

/-- Model of `os.Mkdir`: fails if the path exists or its parent is not a directory. -/
def Mkdir (env : Env) (fs : FS) (p : Path) : Except Err FS :=
  match env.mkdirFault p with
  | some e => Except.error e
  | none =>
    match FS.stat fs p with
    | some _ => Except.error Err.exist
    | none =>
      match FS.stat fs p.dropLast with
      | some Node.dir => Except.ok ((p, Node.dir) :: fs)
      | some (Node.file _) => Except.error Err.notDir
      | none => Except.error Err.notExist

/-- Body of `os.MkdirAll`, by recursion on the reversed path.  Fast path: if
the path exists, succeed when it is a directory and fail with `ENOTDIR`
otherwise.  Slow path: make the parent, then `Mkdir` the path; directories made
before a failure stay. -/
def mkdirAllRev (env : Env) : List GoString → FS → FS × Option Err
  | [], fs => (fs, none)
  | seg :: parentRev, fs =>
    match FS.stat fs (seg :: parentRev).reverse with
    | some Node.dir => (fs, none)
    | some (Node.file _) => (fs, some Err.notDir)
    | none =>
      match mkdirAllRev env parentRev fs with
      | (fs1, some e) => (fs1, some e)
      | (fs1, none) =>
        match Mkdir env fs1 (seg :: parentRev).reverse with
        | Except.ok fs2 => (fs2, none)
        | Except.error e =>
          if FS.stat fs1 (seg :: parentRev).reverse = some Node.dir then (fs1, none)
          else (fs1, some e)

/-- Model of `os.MkdirAll(path, perm)`.  Permission bits are not modelled. -/
def MkdirAll (env : Env) (w : World) (p : Path) : World × Option Err :=
  match mkdirAllRev env p.reverse w.fs with
  | (fs1, none) => ((w.log (Call.mkdirAll p)).setFS fs1, none)
  | (fs1, some e) => (((w.log (Call.mkdirAll p)).setFS fs1).fail, some e)

/-- Model of `os.OpenFile(path, O_WRONLY|O_CREATE|O_TRUNC, mode)` and `os.Create(path)`:
the file is created empty or truncated; fails on a directory or when the parent
is not a directory. -/
def OpenFile (env : Env) (w : World) (p : Path) : World × Option Err :=
  match env.createFault p with
  | some e => ((w.log (Call.create p)).fail, some e)
  | none =>
    match FS.stat w.fs p with
    | some Node.dir => ((w.log (Call.create p)).fail, some Err.isDir)
    | some (Node.file _) => ((w.log (Call.create p)).setFS ((p, Node.file []) :: w.fs), none)
    | none =>
      match FS.stat w.fs p.dropLast with
      | some Node.dir => ((w.log (Call.create p)).setFS ((p, Node.file []) :: w.fs), none)
      | some (Node.file _) => ((w.log (Call.create p)).fail, some Err.notDir)
      | none => ((w.log (Call.create p)).fail, some Err.notExist)

/-- Model of `io.Copy(dst, src)` into the open file at `p`: `body` is what the source
delivers and `readErr` the error that ends it, if any.  An injected write
failure after `n` runes leaves the first `n` runes in the file. -/
def Copy (env : Env) (w : World) (p : Path) (body : GoString) (readErr : Option Err) :
    World × Option Err :=
  match env.writeFault p with
  | some (n, e) =>
    if n < body.length then
      (((w.log (Call.copy p)).setFS ((p, Node.file (body.take n)) :: w.fs)).fail, some e)
    else ((w.log (Call.copy p)).setFS ((p, Node.file body) :: w.fs), readErr)
  | none => ((w.log (Call.copy p)).setFS ((p, Node.file body) :: w.fs), readErr)

/-- Retry loop of `os.MkdirTemp`: a fresh random name per attempt, again while
the name exists, at most `fuel` attempts. -/
def mkdirTempLoop (env : Env) (pattern : GoString) : Nat → Nat → FS → Except Err (FS × Path)
  | 0, _, _ => Except.error Err.exist
  | fuel + 1, attempt, fs =>
    match Mkdir env fs (env.tempDir ++ [pattern ++ env.randomName attempt]) with
    | Except.ok fs1 => Except.ok (fs1, env.tempDir ++ [pattern ++ env.randomName attempt])
    | Except.error e =>
      if e = Err.exist then mkdirTempLoop env pattern fuel (attempt + 1) fs
      else Except.error e

/-- Model of `os.MkdirTemp("", pattern)`: a new directory under `os.TempDir()`. -/
def MkdirTemp (env : Env) (w : World) (pattern : GoString) : World × Except Err Path :=
  match mkdirTempLoop env pattern 10000 0 w.fs with
  | Except.ok (fs1, dest) => ((w.log (Call.mkdirTemp pattern)).setFS fs1, Except.ok dest)
  | Except.error e => ((w.log (Call.mkdirTemp pattern)).fail, Except.error e)

/-- Model of `os.RemoveAll(path)`: removes the path and everything below it. -/
def RemoveAll (w : World) (p : Path) : World :=
  (w.log (Call.removeAll p)).setFS (w.fs.filter (fun x => !(p.isPrefixOf x.1)))

/-! ## Extraction -/

/-- The loop of `unzip` over `r.File`. -/
def unzipLoop (env : Env) (dest : Path) : List ZipEntry → World → World × Option Err
  | [], w => (w, none)
  | f :: rest, w =>
    if f.IsDir then
      unzipLoop env dest rest (MkdirAll env w (Join dest f.name)).1
    else
      match MkdirAll env w (Dir (Join dest f.name)) with
      | (w1, some e) => (w1, some e)
      | (w1, none) =>
        match OpenFile env w1 (Join dest f.name) with
        | (w2, some e) => (w2, some e)
        | (w2, none) =>
          match f.openErr with
          | some e => (w2, some e)
          | none =>
            match Copy env w2 (Join dest f.name) f.body f.readErr with
            | (w3, some e) => (w3, some e)
            | (w3, none) => unzipLoop env dest rest w3

/-- Model of `unzip(src)`: the destination directory, or the error (the Go function
returns the empty string with it). -/
def unzip (env : Env) (w : World) (src : GoString) : World × Except Err Path :=
  match env.zipFile src with
  | Except.error e => (w.log (Call.unzip src), Except.error e)
  | Except.ok files =>
    match MkdirTemp env (w.log (Call.unzip src)) "logs_unzip_".toList with
    | (w1, Except.error e) => (w1, Except.error e)
    | (w1, Except.ok dest) =>
      match unzipLoop env dest files w1 with
      | (w2, some e) => (w2, Except.error e)
      | (w2, none) => (w2, Except.ok dest)

/-- The loop of `untar`: `tail` is what `tr.Next()` returns after the last
entry. -/
def untarLoop (env : Env) (dest : Path) (tail : Option Err) :
    List TarEntry → World → World × Option Err
  | [], w => (w, tail)
  | header :: rest, w =>
    if header.typeflag = TypeDir then
      match MkdirAll env w (Join dest header.name) with
      | (w1, some e) => (w1, some e)
      | (w1, none) => untarLoop env dest tail rest w1
    else if header.typeflag = TypeReg then
      match MkdirAll env w (Dir (Join dest header.name)) with
      | (w1, some e) => (w1, some e)
      | (w1, none) =>
        match OpenFile env w1 (Join dest header.name) with
        | (w2, some e) => (w2, some e)
        | (w2, none) =>
          match Copy env w2 (Join dest header.name) header.body header.readErr with
          | (w3, some e) => (w3, some e)
          | (w3, none) => untarLoop env dest tail rest w3
    else untarLoop env dest tail rest w

/-- Model of `untar(src)`. -/
def untar (env : Env) (w : World) (src : GoString) : World × Except Err Path :=
  match env.tarFile src with
  | Except.error e => (w.log (Call.untar src), Except.error e)
  | Except.ok tf =>
    match MkdirTemp env (w.log (Call.untar src)) "logs_untar_".toList with
    | (w1, Except.error e) => (w1, Except.error e)
    | (w1, Except.ok dest) =>
      match untarLoop env dest tf.tail tf.entries w1 with
      | (w2, some e) => (w2, Except.error e)
      | (w2, none) => (w2, Except.ok dest)

/-! ## Scanning -/

/-- The string `fmt.Printf("[%s:%d]: %s\n", path, lineNum, text)` prints. -/
def matchLine (path : GoString) (lineNum : Nat) (text : GoString) : GoString :=
  "[".toList ++ path ++ ":".toList ++ (Nat.repr lineNum).toList ++ "]: ".toList ++ text
    ++ "\n".toList

/-- The keyword test of `parseFile` on one line. -/
def hasKeyword (env : Env) (text : GoString) : Bool :=
  Contains (ToLower env.unicodeToLower text) "error".toList
    || Contains (ToLower env.unicodeToLower text) "timeout".toList

/-- The loop `for scanner.Scan() { ... lineNum++ }` of `parseFile` over the
tokens the scanner delivers. -/
def scanLoop (env : Env) (path : GoString) : Nat → List GoString → World → World
  | _, [], w => w
  | lineNum, text :: rest, w =>
    if hasKeyword env text then
      scanLoop env path (lineNum + 1) rest (w.print (matchLine path lineNum text))
    else scanLoop env path (lineNum + 1) rest w

/-- What a reader opened on the file at `p` delivers: the contents, cut short
by an injected read failure; reading a directory fails at once. -/
def readAll (env : Env) (fs : FS) (p : Path) : Option (GoString × Option Err) :=
  match FS.stat fs p with
  | none => none
  | some Node.dir => some ([], some Err.isDir)
  | some (Node.file data) =>
    match env.readFault p with
    | some (n, e) => if n < data.length then some (data.take n, some e) else some (data, none)
    | none => some (data, none)

/-- Model of `parseFile(path)`.  After a read failure the scanner still delivers the
lines it has buffered, then reports the failure; `ErrTooLong` takes precedence
since it ends the scan before the failing read. -/
def parseFile (env : Env) (w : World) (path : Path) : World × Option Err :=
  match env.openFault path with
  | some e => (w.log (Call.fileOpen path), some e)
  | none =>
    match readAll env w.fs path with
    | none => (w.log (Call.fileOpen path), some Err.notExist)
    | some (data, readErr) =>
      (scanLoop env (render path) 1 (scanFrom [] data).1 (w.log (Call.fileOpen path)),
        match (scanFrom [] data).2 with
        | some e => some e
        | none => readErr)

/-! ## Walking -/

/-- An `os.FileInfo`, as far as the program looks at it. -/
structure FileInfo where
  isDir : Bool
  deriving DecidableEq

/-- One call of the walk function: `walkFn(path, info, err)`.  When `err` is
set by a failed `Lstat` Go passes a nil `info`; the walk function does not look
at it then. -/
structure Visit where
  path : Path
  info : FileInfo
  err : Option Err
  deriving DecidableEq

/-- Model of `processFile(path, info, err)`. -/
def processFile (env : Env) (w : World) (v : Visit) : World × Option Err :=
  match v.err with
  | some e => (w, some e)
  | none =>
    if v.info.isDir then (w, none)
    else if ToLower env.unicodeToLower (Ext (render v.path)) = ".log".toList
        ∨ ToLower env.unicodeToLower (Ext (render v.path)) = ".txt".toList then
      parseFile env w v.path
    else (w, none)

/-- Lexicographic order of strings by code point (Go's `<=` on strings). -/
def strLe : GoString → GoString → Bool
  | [], _ => true
  | _ :: _, [] => false
  | a :: s, b :: t => a.toNat < b.toNat || (a = b && strLe s t)

/-- Insertion into a sorted list of names, dropping a name already there. -/
def insertName (name : GoString) : List GoString → List GoString
  | [] => [name]
  | x :: xs =>
    if name = x then x :: xs
    else if strLe name x then name :: x :: xs
    else x :: insertName name xs

/-- Model of `os.Lstat`. -/
def Lstat (env : Env) (fs : FS) (p : Path) : Except Err FileInfo :=
  match env.lstatFault p with
  | some e => Except.error e
  | none =>
    match FS.stat fs p with
    | none => Except.error Err.notExist
    | some Node.dir => Except.ok { isDir := true }
    | some (Node.file _) => Except.ok { isDir := false }

/-- Model of `readDirNames` of package filepath: the names in a directory, sorted. -/
def readDirNames (env : Env) (fs : FS) (p : Path) : Except Err (List GoString) :=
  match env.readdirFault p with
  | some e => Except.error e
  | none =>
    Except.ok ((fs.filter (fun x => decide (x.1 ≠ [] ∧ x.1.dropLast = p))).foldr
      (fun x names => insertName (x.1.getLastD []) names) [])

/-- The calls `filepath.walk(path, info, walkFn)` makes when no call returns an
error: the node itself, then for a directory its children in name order, each
walked in turn.  A directory that cannot be read is delivered with the error and
not entered.  `fuel` bounds the depth. -/
def walkNodes (env : Env) (fs : FS) : Nat → Path → FileInfo → List Visit
  | 0, _, _ => []
  | fuel + 1, path, info =>
    if info.isDir then
      match readDirNames env fs path with
      | Except.error e => [{ path := path, info := info, err := some e }]
      | Except.ok names =>
        { path := path, info := info, err := none } ::
          names.flatMap (fun name =>
            match Lstat env fs (Join path name) with
            | Except.error e =>
              [{ path := Join path name, info := { isDir := false }, err := some e }]
            | Except.ok fileInfo => walkNodes env fs fuel (Join path name) fileInfo)
    else [{ path := path, info := info, err := none }]

/-- The calls `filepath.Walk(root, walkFn)` makes when no call returns an error. -/
def walkVisits (env : Env) (fs : FS) (root : Path) : List Visit :=
  match Lstat env fs root with
  | Except.error e => [{ path := root, info := { isDir := false }, err := some e }]
  | Except.ok info => walkNodes env fs (fs.length + 1) root info

/-- The walk function applied to the nodes in order, up to the first error,
which is returned. -/
def visitAll (env : Env) : List Visit → World → World × Option Err
  | [], w => (w, none)
  | v :: rest, w =>
    match processFile env w v with
    | (w1, some e) => (w1, some e)
    | (w1, none) => visitAll env rest w1

/-- Model of `filepath.Walk(root, processFile)`.  `processFile` does not change the file
system and never returns `SkipDir` or `SkipAll`, so the walk is the nodes of
`walkVisits` visited in order up to the first error. -/
def Walk (env : Env) (w : World) (root : Path) : World × Option Err :=
  visitAll env (walkVisits env w.fs root) (w.log (Call.walk root))

/-! ## The pipeline -/

/-- The part of `main` after a successful extraction: announce the directory,
check it exists, walk it, report a walk error; the deferred
`os.RemoveAll(destDir)` runs last on every path. -/
def scanExtracted (env : Env) (w : World) (destDir : Path) : World :=
  match FS.stat w.fs destDir with
  | none =>
    RemoveAll
      (((w.print ("Extracted directory: ".toList ++ render destDir ++ "\n".toList)).log
        (Call.stat destDir)).print
        ("Destination directory does not exist: ".toList ++ render destDir ++ "\n".toList))
      destDir
  | some _ =>
    match Walk env ((w.print ("Extracted directory: ".toList ++ render destDir
        ++ "\n".toList)).log (Call.stat destDir)) destDir with
    | (w1, some e) =>
      RemoveAll (w1.print ("Traversal error: ".toList ++ env.errorText e ++ "\n".toList)) destDir
    | (w1, none) => RemoveAll w1 destDir

/-- Model of `main()` with `os.Args = args`.  Each branch of the `switch` returns on
an extraction error, so the test `if err != nil` after it never fires and has
no counterpart here. -/
def main (env : Env) (w : World) (args : List GoString) : World :=
  match args with
  | _ :: inputFile :: _ =>
    if Ext inputFile = ".zip".toList then
      match unzip env w inputFile with
      | (w1, Except.error e) =>
        w1.print ("unzip error: ".toList ++ env.errorText e ++ "\n".toList)
      | (w1, Except.ok destDir) => scanExtracted env w1 destDir
    else if Ext inputFile = ".tar".toList then
      match untar env w inputFile with
      | (w1, Except.error e) =>
        w1.print ("untar error: ".toList ++ env.errorText e ++ "\n".toList)
      | (w1, Except.ok destDir) => scanExtracted env w1 destDir
    else w.print "Unsupported file type. Only .zip and .tar supported.\n".toList
  | _ => w.print "Usage: go run main.go <zip|tar file>\n".toList

/-! ## Definitions the statements are phrased with -/

/-- The pieces of `data` between newline characters. -/
def splitLines : List Char → List GoString
  | [] => [[]]
  | c :: rest =>
    if c = '\n' then [] :: splitLines rest
    else (c :: (splitLines rest).headD []) :: (splitLines rest).tail

/-- The physical lines of a text file: the pieces between newline characters;
what follows the last newline is a line only if it is not empty. -/
def fileLines (data : GoString) : List GoString :=
  if (splitLines data).getLast? = some [] then (splitLines data).dropLast else splitLines data

/-- A line mentions a keyword: its lower-cased text has `error` or `timeout`
as a substring. -/
def mentionsKeyword (env : Env) (line : GoString) : Prop :=
  "error".toList <:+: ToLower env.unicodeToLower line
    ∨ "timeout".toList <:+: ToLower env.unicodeToLower line

instance (env : Env) (line : GoString) : Decidable (mentionsKeyword env line) := by
  unfold mentionsKeyword; infer_instance

/-- The output asked of a scan: one item per physical line that mentions a
keyword, in file order, numbered from 1; the text printed is the line without
one terminal carriage return. -/
def specMatches (env : Env) (path data : GoString) : List GoString :=
  ((fileLines data).enumFrom 1).filterMap (fun x =>
    if mentionsKeyword env x.2 then some (matchLine path x.1 (dropCR x.2)) else none)

/-- The value of `scanner.Err()` after a scan of `data`, when the reads behind
the scanner ended with `readErr`. -/
def scanErr (data : GoString) (readErr : Option Err) : Option Err :=
  match (scanFrom [] data).2 with
  | some e => some e
  | none => readErr

/-- The node is one the line scanner is run on: not a directory, and the
lower-cased extension of its path is `.log` or `.txt`. -/
def scannable (env : Env) (k : Visit) : Prop :=
  k.info.isDir = false
    ∧ (ToLower env.unicodeToLower (Ext (render k.path)) = ".log".toList
      ∨ ToLower env.unicodeToLower (Ext (render k.path)) = ".txt".toList)

instance (env : Env) (k : Visit) : Decidable (scannable env k) := by
  unfold scannable; infer_instance

/-- The ways a visit of node `k` can fail with `e` in the file system `fs`:
the walk delivers the node with the error `e`; or the node is to be scanned and
its file cannot be opened; or it is opened and the scanner ends with `e`. -/
def FailureCause (env : Env) (fs : FS) (k : Visit) (e : Err) : Prop :=
  k.err = some e
    ∨ (k.err = none ∧ scannable env k
        ∧ (env.openFault k.path = some e
          ∨ (env.openFault k.path = none ∧ FS.stat fs k.path = none ∧ e = Err.notExist)))
    ∨ (k.err = none ∧ scannable env k ∧ env.openFault k.path = none
        ∧ ∃ (data : GoString) (readErr : Option Err),
            readAll env fs k.path = some (data, readErr) ∧ scanErr data readErr = some e)

/-- A call that enters one of the two extractors. -/
def isExtractorCall : Call → Bool
  | Call.unzip _ => true
  | Call.untar _ => true
  | _ => false

/-- A call that opens a file for scanning. -/
def isOpenCall : Call → Bool
  | Call.fileOpen _ => true
  | _ => false

/-- A ZIP entry is a regular file: its mode has no type bit. -/
def ZipEntry.isRegular (f : ZipEntry) : Prop :=
  f.kind = Kind.regular ∧ f.name.getLast? ≠ some '/'

instance (f : ZipEntry) : Decidable f.isRegular := by
  unfold ZipEntry.isRegular; infer_instance

/-- The contents a ZIP archive gives the path `p` below `dest`: the body of the
last regular-file entry whose joined path is `p`. -/
def zipContent (dest : Path) : List ZipEntry → Path → Option GoString
  | [], _ => none
  | f :: rest, p =>
    match zipContent dest rest p with
    | some body => some body
    | none => if f.isRegular ∧ Join dest f.name = p then some f.body else none

/-- The contents a TAR archive gives the path `p` below `dest`: the body of the
last regular-file entry whose joined path is `p`. -/
def tarContent (dest : Path) : List TarEntry → Path → Option GoString
  | [], _ => none
  | h :: rest, p =>
    match tarContent dest rest p with
    | some body => some body
    | none => if h.typeflag = TypeReg ∧ Join dest h.name = p then some h.body else none

/-- Equality of results is decidable. -/
instance exceptDecEq {ε α : Type} [DecidableEq ε] [DecidableEq α] : DecidableEq (Except ε α)
  | Except.ok a, Except.ok b =>
    if h : a = b then isTrue (by rw [h]) else isFalse (fun h2 => h (Except.ok.inj h2))
  | Except.error a, Except.error b =>
    if h : a = b then isTrue (by rw [h]) else isFalse (fun h2 => h (Except.error.inj h2))
  | Except.ok _, Except.error _ => isFalse (fun h => Except.noConfusion h)
  | Except.error _, Except.ok _ => isFalse (fun h => Except.noConfusion h)

/-- The world `w2` is a later state of `w1`: output was only appended to, no
extractor was entered in between, and no failure was forgotten. -/
def Extends (w1 w2 : World) : Prop :=
  w1.out <+: w2.out
    ∧ w2.calls.filter isExtractorCall = w1.calls.filter isExtractorCall
    ∧ w1.failures ≤ w2.failures

/-- The step from `fs` to `fs2` keeps the directory `dest` and leaves every
path outside `dest` as it was. -/
def Keeps (dest : Path) (fs fs2 : FS) : Prop :=
  FS.stat fs2 dest = some Node.dir ∧ ∀ q : Path, ¬ dest <+: q → FS.stat fs2 q = FS.stat fs q

/-! ## Concrete inputs -/

/-- An environment with no archive and no injected failure; temporary
directories are `/tmp/<pattern><attempt number>`. -/
def plainEnv : Env where
  unicodeToLower := Char.toLower
  unicodeToLower_ascii := fun _ _ => rfl
  errorText := fun _ => "failed".toList
  tempDir := ["tmp".toList]
  randomName := fun n => (Nat.repr n).toList
  zipFile := fun _ => Except.error Err.notExist
  tarFile := fun _ => Except.error Err.notExist
  mkdirFault := fun _ => none
  createFault := fun _ => none
  writeFault := fun _ => none
  openFault := fun _ => none
  readFault := fun _ => none
  lstatFault := fun _ => none
  readdirFault := fun _ => none

/-- A world whose file system holds only `/tmp`. -/
def emptyWorld : World :=
  { fs := [(["tmp".toList], Node.dir)], out := [], calls := [], failures := 0 }

/-- A world whose file system holds the file `/f.log` with the given contents. -/
def fileWorld (data : GoString) : World :=
  { fs := [(["f.log".toList], Node.file data)], out := [], calls := [], failures := 0 }

/-- A file whose first line is 65536 bytes long and whose second line is `error`. -/
def longLineFile : GoString := List.replicate 65536 'a' ++ "\nerror\n".toList

/-- A regular-file entry of a ZIP archive that can be read in full. -/
def zipFileEntry (name body : String) : ZipEntry :=
  { name := name.toList, kind := Kind.regular, openErr := none, body := body.toList,
    readErr := none }

/-- A directory entry of a ZIP archive. -/
def zipDirEntry (name : String) : ZipEntry :=
  { name := name.toList, kind := Kind.dir, openErr := none, body := [], readErr := none }

/-- The environment `plainEnv` where every `.zip` path opens as the given archive. -/
def zipEnv (files : List ZipEntry) : Env :=
  { plainEnv with zipFile := fun _ => Except.ok files }

/-- The environment `plainEnv` where every `.tar` path opens as the given stream. -/
def tarEnv (entries : List TarEntry) : Env :=
  { plainEnv with tarFile := fun _ => Except.ok { entries := entries, tail := none } }

/-- The archive of scenario A: `a/b.log` with an `ERROR` line. -/
def scenarioZip : List ZipEntry :=
  [zipFileEntry "a/b.log" "line1\nERROR: disk failed\nline3\n"]

/-- The archive of scenario B, as a tar stream. -/
def scenarioTar : List TarEntry :=
  [{ name := "app.txt".toList, typeflag := TypeReg, body := "ok\ntimeout waiting\nok\n".toList,
     readErr := none },
   { name := "app.bin".toList, typeflag := TypeReg, body := "error".toList, readErr := none }]

/-- An archive with one entry whose name climbs out of the destination. -/
def evilZip : List ZipEntry := [zipFileEntry "../evil.txt" "pwned"]

/-- The same as a tar stream. -/
def evilTar : List TarEntry :=
  [{ name := "../evil.txt".toList, typeflag := TypeReg, body := "pwned".toList, readErr := none }]

/-- An archive with a file `a` and then a directory `a/b/`, which cannot be made. -/
def blockedDirZip : List ZipEntry := [zipFileEntry "a" "x", zipDirEntry "a/b/"]

/-- The same as a tar stream. -/
def blockedDirTar : List TarEntry :=
  [{ name := "a".toList, typeflag := TypeReg, body := "x".toList, readErr := none },
   { name := "a/b/".toList, typeflag := TypeDir, body := [], readErr := none }]

/-- An archive with a file `a` and then a file `a/b`, whose parent cannot be made. -/
def blockedFileZip : List ZipEntry := [zipFileEntry "a" "x", zipFileEntry "a/b" "y"]

/-- An archive with one symbolic link `link -> target`. -/
def symlinkZip : List ZipEntry :=
  [{ name := "link".toList, kind := Kind.symlink, openErr := none, body := "target".toList,
     readErr := none }]

/-- The same as a tar stream (`tar.TypeSymlink` is `'2'`). -/
def symlinkTar : List TarEntry :=
  [{ name := "link".toList, typeflag := '2', body := [], readErr := none }]

/-- The directory `os.MkdirTemp` makes first for `unzip` in `plainEnv`. -/
def unzipDest : Path := ["tmp".toList, "logs_unzip_0".toList]

/-- The directory `os.MkdirTemp` makes first for `untar` in `plainEnv`. -/
def untarDest : Path := ["tmp".toList, "logs_untar_0".toList]

/-- The environment `plainEnv` where `/x/b.log` cannot be opened. -/
def lockedEnv : Env :=
  { plainEnv with
    openFault := fun p => if p = ["x".toList, "b.log".toList] then some (Err.other 13) else none }

/-- The environment `plainEnv` where `os.Lstat` fails on `/x/b.log`. -/
def hiddenEnv : Env :=
  { plainEnv with
    lstatFault := fun p => if p = ["x".toList, "b.log".toList] then some (Err.other 5) else none }

/-- The environment `plainEnv` where reading `/x/b.log` fails after 8 runes, the
length of its first line with the newline. -/
def brokenReadEnv : Env :=
  { plainEnv with
    readFault := fun p =>
      if p = ["x".toList, "b.log".toList] then some (8, Err.other 5) else none }

/-- A world with the directory `/x` holding `a.log`, `b.log` and `c.log`, each
starting with an `error` line. -/
def threeLogsWorld : World :=
  { fs := [(["x".toList, "c.log".toList], Node.file "error c\n".toList),
           (["x".toList, "b.log".toList], Node.file "error b\nlast\n".toList),
           (["x".toList, "a.log".toList], Node.file "error a\n".toList),
           (["x".toList], Node.dir)],
    out := [], calls := [], failures := 0 }

/-- The nodes the walk of `/x` delivers before `b.log`. -/
def lockedBefore : List Visit :=
  [{ path := ["x".toList], info := { isDir := true }, err := none },
   { path := ["x".toList, "a.log".toList], info := { isDir := false }, err := none }]

/-- The node `b.log` as the walk delivers it. -/
def lockedNode : Visit :=
  { path := ["x".toList, "b.log".toList], info := { isDir := false }, err := none }

/-- The node `b.log` as the walk delivers it when `os.Lstat` fails on it. -/
def hiddenNode : Visit :=
  { path := ["x".toList, "b.log".toList], info := { isDir := false }, err := some (Err.other 5) }

/-- The node `c.log` as the walk delivers it. -/
def lastNode : Visit :=
  { path := ["x".toList, "c.log".toList], info := { isDir := false }, err := none }

/-- The world in which the walk of `/x` starts inside `scanExtracted`. -/
def lockedStart : World :=
  ((threeLogsWorld.print ("Extracted directory: ".toList ++ render ["x".toList]
    ++ "\n".toList)).log (Call.stat ["x".toList])).log (Call.walk ["x".toList])

/-! ## Lines and keywords -/

theorem splitLines_ne_nil (data : List Char) : splitLines data ≠ [] := by
  cases data with
  | nil => simp [splitLines]
  | cons c rest => by_cases h : c = '\n' <;> simp [splitLines, h]

theorem splitLines_of_not_mem (cur : List Char) (h : '\n' ∉ cur) : splitLines cur = [cur] := by
  induction cur with
  | nil => rfl
  | cons c cur ih =>
    have hc : c ≠ '\n' := fun e => h (by simp [e])
    have h2 : '\n' ∉ cur := fun e => h (by simp [e])
    simp [splitLines, hc, ih h2]

theorem splitLines_append_newline (cur rest : List Char) (h : '\n' ∉ cur) :
    splitLines (cur ++ '\n' :: rest) = cur :: splitLines rest := by
  induction cur with
  | nil => simp [splitLines]
  | cons c cur ih =>
    have hc : c ≠ '\n' := fun e => h (by simp [e])
    have h2 : '\n' ∉ cur := fun e => h (by simp [e])
    simp [splitLines, hc, ih h2]

theorem fileLines_of_not_mem (cur : List Char) (h : '\n' ∉ cur) :
    fileLines cur = if cur = [] then [] else [cur] := by
  unfold fileLines
  rw [splitLines_of_not_mem cur h]
  by_cases hc : cur = [] <;> simp [hc]

theorem fileLines_append_newline (cur rest : List Char) (h : '\n' ∉ cur) :
    fileLines (cur ++ '\n' :: rest) = cur :: fileLines rest := by
  unfold fileLines
  rw [splitLines_append_newline cur rest h]
  obtain ⟨x, xs, hx⟩ := List.exists_cons_of_ne_nil (splitLines_ne_nil rest)
  rw [hx, List.getLast?_cons_cons]
  by_cases hl : (x :: xs).getLast? = some []
  · simp [hl]
  · simp [hl]

/-- The scanner delivers the file's lines, each without its terminal carriage
return, up to the first line that does not fit the buffer. -/
theorem scanFrom_eq (data cur : List Char) (h : '\n' ∉ cur) :
    scanFrom cur data =
      (((fileLines (cur ++ data)).takeWhile
          (fun l => decide (utf8Len l < MaxScanTokenSize))).map dropCR,
        if (fileLines (cur ++ data)).all (fun l => decide (utf8Len l < MaxScanTokenSize))
        then none else some Err.tooLong) := by
  induction data generalizing cur with
  | nil =>
    rw [List.append_nil, fileLines_of_not_mem cur h]
    by_cases hc : cur = []
    · simp [scanFrom, hc]
    · by_cases hl : MaxScanTokenSize ≤ utf8Len cur
      · simp [scanFrom, hc, hl, Nat.not_lt.mpr hl]
      · simp [scanFrom, hc, hl, Nat.lt_of_not_le hl]
  | cons c rest ih =>
    by_cases hc : c = '\n'
    · subst hc
      rw [fileLines_append_newline cur rest h]
      have ih0 := ih [] (by simp)
      simp only [List.nil_append] at ih0
      by_cases hl : MaxScanTokenSize ≤ utf8Len cur
      · simp [scanFrom, hl, Nat.not_lt.mpr hl]
      · simp [scanFrom, hl, Nat.lt_of_not_le hl, ih0]
    · have h2 : '\n' ∉ cur ++ [c] := by
        simp only [List.mem_append, List.mem_singleton, not_or]
        exact ⟨h, fun e => hc e.symm⟩
      have := ih (cur ++ [c]) h2
      simp only [List.append_assoc, List.singleton_append] at this
      simp [scanFrom, hc, this]

theorem contains_iff (s sub : GoString) : Contains s sub = true ↔ sub <:+: s := by
  induction s with
  | nil => simp [Contains, List.isPrefixOf_iff_prefix]
  | cons c s ih =>
    simp [Contains, List.isPrefixOf_iff_prefix, List.infix_cons_iff, ih]

theorem infix_append_singleton {kw s : GoString} {x : Char} (hne : kw ≠ []) (hx : x ∉ kw) :
    kw <:+: s ++ [x] ↔ kw <:+: s := by
  constructor
  · rintro ⟨a, b, hab⟩
    rcases List.eq_nil_or_concat b with hb | ⟨b1, y, hb⟩
    · subst hb
      exfalso
      rw [List.append_nil] at hab
      obtain ⟨k1, z, hk⟩ : ∃ k1 z, kw = k1 ++ [z] := by
        rcases List.eq_nil_or_concat kw with h | ⟨k1, z, h⟩
        · exact absurd h hne
        · exact ⟨k1, z, by simpa using h⟩
      subst hk
      rw [← List.append_assoc] at hab
      have := List.append_inj_right' hab rfl
      simp only [List.cons.injEq, and_true] at this
      exact hx (by simp [this])
    · subst hb
      have h2 : (a ++ kw ++ b1) ++ [y] = s ++ [x] := by simpa [List.append_assoc] using hab
      have := List.append_inj_left' h2 rfl
      exact ⟨a, b1, this⟩
  · intro h
    exact h.trans (List.prefix_append s [x]).isInfix

theorem toLower_append_cr (u : Char → Char) (hu : u '\r' = '\r') (s : GoString) :
    ToLower u (s ++ ['\r']) = ToLower u s ++ ['\r'] := by
  unfold ToLower
  by_cases h : s.all (fun c => decide (c.toNat < 128)) = true
  · have h2 : (s ++ ['\r']).all (fun c => decide (c.toNat < 128)) = true := by
      rw [List.all_append, h]; decide
    rw [if_pos h, if_pos h2, List.map_append]; rfl
  · have h2 : ¬ (s ++ ['\r']).all (fun c => decide (c.toNat < 128)) = true := by
      rw [List.all_append]; simp only [Bool.and_eq_true, not_and]; intro h3; exact absurd h3 h
    rw [if_neg h, if_neg h2, List.map_append]; simp [hu]

theorem dropCR_spec (l : GoString) :
    (l = dropCR l ++ ['\r']) ∨ (l.getLast? ≠ some '\r' ∧ dropCR l = l) := by
  unfold dropCR
  by_cases h : l.getLast? = some '\r'
  · left
    rw [if_pos h]
    rcases List.eq_nil_or_concat l with hl | ⟨l1, y, hl⟩
    · subst hl; simp at h
    · subst hl
      simp at h
      simp [h]
  · right; simp [h]

theorem hasKeyword_dropCR (env : Env) (l : GoString) :
    hasKeyword env (dropCR l) = true ↔ mentionsKeyword env l := by
  unfold hasKeyword mentionsKeyword
  rw [Bool.or_eq_true, contains_iff, contains_iff]
  rcases dropCR_spec l with h | ⟨_, h⟩
  · conv_rhs => rw [h, toLower_append_cr _ (env.unicodeToLower_ascii '\r' (by decide))]
    rw [infix_append_singleton (by decide) (by decide),
      infix_append_singleton (by decide) (by decide)]
  · rw [h]

theorem scanLoop_out (env : Env) (path : GoString)
    (lines : List GoString) (n : Nat) (w : World) :
    scanLoop env path n (lines.map dropCR) w =
      { w with out := w.out ++ (lines.enumFrom n).filterMap (fun x =>
          if mentionsKeyword env x.2 then some (matchLine path x.1 (dropCR x.2)) else none) } := by
  induction lines generalizing n w with
  | nil => simp [scanLoop]
  | cons l ls ih =>
    simp only [List.map_cons, scanLoop, List.enumFrom_cons]
    by_cases hk : mentionsKeyword env l
    · have := (hasKeyword_dropCR env l).mpr hk
      rw [if_pos this, ih]
      simp [List.filterMap_cons, hk, World.print]
    · have : ¬ hasKeyword env (dropCR l) = true := fun h => hk ((hasKeyword_dropCR env l).mp h)
      rw [if_neg this, ih]
      simp [List.filterMap_cons, hk]

/-! ## The scan of one file -/

theorem scanLoop_eq (env : Env) (path : GoString) (toks : List GoString) (n : Nat) (w : World) :
    scanLoop env path n toks w =
      { w with out := w.out ++ (toks.enumFrom n).filterMap (fun x =>
          if hasKeyword env x.2 then some (matchLine path x.1 x.2) else none) } := by
  induction toks generalizing n w with
  | nil => simp [scanLoop]
  | cons l ls ih =>
    simp only [scanLoop, List.enumFrom_cons]
    by_cases hk : hasKeyword env l = true
    · rw [if_pos hk, ih]
      simp [List.filterMap_cons, hk, World.print]
    · rw [if_neg hk, ih]
      simp [List.filterMap_cons, hk]

theorem parseFile_of_file (env : Env) (w : World) (path : Path) (data : GoString)
    (hopen : env.openFault path = none) (hread : env.readFault path = none)
    (hfile : FS.stat w.fs path = some (Node.file data)) :
    parseFile env w path =
      (scanLoop env (render path) 1 (scanFrom [] data).1 (w.log (Call.fileOpen path)),
        (scanFrom [] data).2) := by
  unfold parseFile readAll
  rw [hopen, hfile, hread]
  simp only
  cases (scanFrom [] data).2 <;> rfl

/-- C2, amended.  For every file that can be opened and read, in which every
physical line (the bytes between newline characters) is shorter than
`bufio.MaxScanTokenSize` = 65536 bytes, `parseFile` returns no error and prints
exactly `specMatches`: one item for each line whose lower-cased text contains
`error` or `timeout`, none for any other line, in increasing line order, the
number printed for the i-th physical line being i. -/
theorem parseFile_emits_one_match_per_keyword_line (env : Env) (w : World) (path : Path)
    (data : GoString)
    (hopen : env.openFault path = none) (hread : env.readFault path = none)
    (hfile : FS.stat w.fs path = some (Node.file data))
    (hshort : ∀ l ∈ fileLines data, utf8Len l < MaxScanTokenSize) :
    (parseFile env w path).2 = none
      ∧ (parseFile env w path).1.out = w.out ++ specMatches env (render path) data := by
  rw [parseFile_of_file env w path data hopen hread hfile]
  have hscan := scanFrom_eq data [] (by simp)
  simp only [List.nil_append] at hscan
  have hall : (fileLines data).all (fun l => decide (utf8Len l < MaxScanTokenSize)) = true := by
    simpa using hshort
  have htake : (fileLines data).takeWhile (fun l => decide (utf8Len l < MaxScanTokenSize))
      = fileLines data := by
    rw [List.takeWhile_eq_self_iff]
    simpa using hshort
  have hscan2 : scanFrom [] data = ((fileLines data).map dropCR, none) := by
    rw [hscan, htake]
    simp only [hall, if_true]
  rw [hscan2]
  simp only [true_and]
  rw [scanLoop_out]
  simp [specMatches, World.log]

theorem takeWhile_take_of_all (p : GoString → Bool) (L : List GoString) (m : Nat)
    (h : ∀ l ∈ L.take m, p l = true) : (L.takeWhile p).take m = L.take m := by
  induction L generalizing m with
  | nil => simp
  | cons l ls ih =>
    cases m with
    | zero => simp
    | succ m =>
      have hl : p l = true := h l (by simp)
      have hrest : ∀ x ∈ ls.take m, p x = true := fun x hx => h x (by simp [hx])
      simp only [List.takeWhile_cons, hl, if_true, List.take_succ_cons, ih m hrest]

theorem item_of_line (env : Env) (path : GoString) (L : List GoString) (n k : Nat)
    (t : GoString) (hL : L[n]? = some t) (hk : mentionsKeyword env t) :
    ((L.enumFrom k).filterMap (fun x =>
        if mentionsKeyword env x.2 then some (matchLine path x.1 (dropCR x.2)) else none))[
        (L.take n).countP (fun l => decide (mentionsKeyword env l))]?
      = some (matchLine path (k + n) (dropCR t)) := by
  induction L generalizing n k with
  | nil => simp at hL
  | cons l ls ih =>
    cases n with
    | zero =>
      simp only [List.getElem?_cons_zero, Option.some.injEq] at hL
      subst hL
      simp [List.enumFrom_cons, List.filterMap_cons, hk]
    | succ m =>
      simp only [List.getElem?_cons_succ] at hL
      have := ih m (k + 1) hL
      have hkm : k + 1 + m = k + (m + 1) := by omega
      rw [hkm] at this
      by_cases hl : mentionsKeyword env l
      · simp only [List.enumFrom_cons, List.filterMap_cons, hl, if_true, List.take_succ_cons,
          List.countP_cons_of_pos, decide_True, List.getElem?_cons_succ]
        exact this
      · simp only [List.enumFrom_cons, List.filterMap_cons, hl, if_false, List.take_succ_cons,
          decide_False, Bool.false_eq_true, not_false_eq_true, List.countP_cons_of_neg]
        exact this

theorem parseFile_items_come_from_lines (env : Env) (w : World) (path : Path)
    (data : GoString)
    (hopen : env.openFault path = none) (hread : env.readFault path = none)
    (hfile : FS.stat w.fs path = some (Node.file data)) :
    ∀ s ∈ (parseFile env w path).1.out.drop w.out.length,
      ∃ (n : Nat) (t text : GoString),
        (fileLines data)[n]? = some t ∧ mentionsKeyword env t
          ∧ (t = text ++ ['\r'] ∨ (t.getLast? ≠ some '\r' ∧ text = t))
          ∧ s = "[".toList ++ render path ++ ":".toList ++ (Nat.repr (n + 1)).toList
              ++ "]: ".toList ++ text ++ "\n".toList := by
  rw [parseFile_of_file env w path data hopen hread hfile]
  have hscan := scanFrom_eq data [] (by simp)
  simp only [List.nil_append] at hscan
  rw [hscan]
  simp only
  rw [scanLoop_out]
  simp only [World.log, List.drop_left]
  intro s hs
  rw [List.mem_filterMap] at hs
  obtain ⟨⟨i, t⟩, hmem, hst⟩ := hs
  rw [List.mk_mem_enumFrom_iff_le_and_getElem?_sub] at hmem
  obtain ⟨hi, hget⟩ := hmem
  simp only at hst
  by_cases hk : mentionsKeyword env t
  · rw [if_pos hk] at hst
    refine ⟨i - 1, t, dropCR t, ?_, hk, ?_, ?_⟩
    · have hpre := List.takeWhile_prefix (fun l => decide (utf8Len l < MaxScanTokenSize))
        (l := fileLines data)
      obtain ⟨tl, htl⟩ := hpre
      rw [← htl]
      have hlt : i - 1 < ((fileLines data).takeWhile
          (fun l => decide (utf8Len l < MaxScanTokenSize))).length := by
        by_contra hcon
        rw [List.getElem?_eq_none (Nat.le_of_not_lt hcon)] at hget
        exact absurd hget (by simp)
      rw [List.getElem?_append_left hlt]
      exact hget
    · rcases dropCR_spec t with h | ⟨h1, h2⟩
      · exact Or.inl h
      · exact Or.inr ⟨h1, h2⟩
    · have : i - 1 + 1 = i := Nat.sub_add_cancel hi
      rw [this]
      simp only [Option.some.injEq] at hst
      rw [← hst]; rfl
  · rw [if_neg hk] at hst
    exact absurd hst (by simp)


/-- C10, amended.  Let `t` be the physical line number `n + 1` of a file that
can be opened and read, let `t` mention a keyword, and let the scan reach it
(every line up to and including it is shorter than 65536 bytes).  Then the item
`parseFile` prints for that line, which is the one after the items of the
matching lines before it, is exactly `[p:n+1]: text` followed by a newline,
where `text` is `t` without one terminal carriage return: either
`t = text ++ "\r"`, or `t` does not end in a carriage return and `text = t`.
Letter case, leading and other trailing white space stay.  Conversely every
item printed is the item of a matching line in this sense. -/
theorem parseFile_prints_line_without_final_cr (env : Env) (w : World) (path : Path)
    (data : GoString) (n : Nat) (t : GoString)
    (hopen : env.openFault path = none) (hread : env.readFault path = none)
    (hfile : FS.stat w.fs path = some (Node.file data))
    (hline : (fileLines data)[n]? = some t) (hkw : mentionsKeyword env t)
    (hreach : ∀ l ∈ (fileLines data).take (n + 1), utf8Len l < MaxScanTokenSize) :
    (∃ text : GoString,
        (t = text ++ ['\r'] ∨ (t.getLast? ≠ some '\r' ∧ text = t))
          ∧ ((parseFile env w path).1.out.drop w.out.length)[
              ((fileLines data).take n).countP (fun l => decide (mentionsKeyword env l))]?
            = some ("[".toList ++ render path ++ ":".toList ++ (Nat.repr (n + 1)).toList
                ++ "]: ".toList ++ text ++ "\n".toList))
      ∧ ∀ s ∈ (parseFile env w path).1.out.drop w.out.length,
          ∃ (m : Nat) (u text : GoString),
            (fileLines data)[m]? = some u ∧ mentionsKeyword env u
              ∧ (u = text ++ ['\r'] ∨ (u.getLast? ≠ some '\r' ∧ text = u))
              ∧ s = "[".toList ++ render path ++ ":".toList ++ (Nat.repr (m + 1)).toList
                  ++ "]: ".toList ++ text ++ "\n".toList := by
  refine ⟨⟨dropCR t, ?_, ?_⟩, parseFile_items_come_from_lines env w path data hopen hread hfile⟩
  · rcases dropCR_spec t with h | ⟨h1, h2⟩
    · exact Or.inl h
    · exact Or.inr ⟨h1, h2⟩
  · rw [parseFile_of_file env w path data hopen hread hfile]
    have hscan := scanFrom_eq data [] (by simp)
    simp only [List.nil_append] at hscan
    rw [hscan]
    simp only
    rw [scanLoop_out]
    simp only [World.log, List.drop_left]
    have htake := takeWhile_take_of_all (fun l => decide (utf8Len l < MaxScanTokenSize))
      (fileLines data) (n + 1) (by simpa using hreach)
    have hget : ((fileLines data).takeWhile
        (fun l => decide (utf8Len l < MaxScanTokenSize)))[n]? = some t := by
      have h1 : (((fileLines data).takeWhile
          (fun l => decide (utf8Len l < MaxScanTokenSize))).take (n + 1))[n]? = some t := by
        rw [htake, List.getElem?_take, if_pos (Nat.lt_succ_self n)]
        exact hline
      rw [List.getElem?_take, if_pos (Nat.lt_succ_self n)] at h1
      exact h1
    have hpre : ((fileLines data).takeWhile
        (fun l => decide (utf8Len l < MaxScanTokenSize))).take n = (fileLines data).take n := by
      have := congrArg (List.take n) htake
      simpa [List.take_take] using this
    have := item_of_line env (render path) _ n 1 t hget hkw
    rw [hpre] at this
    rw [this]
    have h1n : 1 + n = n + 1 := by omega
    rw [h1n]
    rfl

theorem utf8Len_replicate_a (n : Nat) : utf8Len (List.replicate n 'a') = n := by
  induction n with
  | zero => rfl
  | succ n ih =>
    have h1 : Char.utf8Size 'a' = 1 := by decide
    simp only [utf8Len, List.replicate_succ, List.map_cons, List.sum_cons, h1] at ih ⊢
    omega

/-- C2, counterexample.  In the file `longLineFile` the second physical line is
`error`, which mentions a keyword; `parseFile` prints nothing for it: the first
line fills the scanner's buffer, the scan stops with `ErrTooLong`. -/
theorem parseFile_long_line_loses_match :
    fileLines longLineFile = [List.replicate 65536 'a', "error".toList]
      ∧ mentionsKeyword plainEnv "error".toList
      ∧ (parseFile plainEnv (fileWorld longLineFile) ["f.log".toList]).1.out = []
      ∧ (parseFile plainEnv (fileWorld longLineFile) ["f.log".toList]).2 = some Err.tooLong := by
  have hnl : '\n' ∉ List.replicate 65536 'a' := by
    intro h
    have := List.eq_of_mem_replicate h
    exact absurd this (by decide)
  have hlines : fileLines longLineFile = [List.replicate 65536 'a', "error".toList] := by
    have h1 : longLineFile = List.replicate 65536 'a' ++ '\n' :: "error\n".toList := rfl
    rw [h1, fileLines_append_newline _ _ hnl]
    have h2 : fileLines "error\n".toList = ["error".toList] := by decide
    rw [h2]
  have hscan : scanFrom [] longLineFile = ([], some Err.tooLong) := by
    have := scanFrom_eq longLineFile [] (by simp)
    rw [List.nil_append, hlines] at this
    rw [this]
    have hlen : ¬ utf8Len (List.replicate 65536 'a') < MaxScanTokenSize := by
      rw [utf8Len_replicate_a]; decide
    generalize List.replicate 65536 'a' = big at hlen
    simp [List.takeWhile_cons, List.all_cons, hlen]
  have hp := parseFile_of_file plainEnv (fileWorld longLineFile) ["f.log".toList] longLineFile
    rfl rfl rfl
  refine ⟨hlines, by decide, ?_, ?_⟩
  · rw [hp, hscan]; rfl
  · rw [hp, hscan]

/-- C2, witness: the file of scenario A. -/
theorem parseFile_emits_one_match_per_keyword_line_witness :
    ((parseFile plainEnv (fileWorld "line1\nERROR: disk failed\nline3\n".toList)
        ["f.log".toList]).2 = none
      ∧ (parseFile plainEnv (fileWorld "line1\nERROR: disk failed\nline3\n".toList)
        ["f.log".toList]).1.out
        = [] ++ specMatches plainEnv (render ["f.log".toList])
            "line1\nERROR: disk failed\nline3\n".toList)
      ∧ specMatches plainEnv (render ["f.log".toList])
            "line1\nERROR: disk failed\nline3\n".toList
          = ["[/f.log:2]: ERROR: disk failed\n".toList] :=
  ⟨parseFile_emits_one_match_per_keyword_line plainEnv
    (fileWorld "line1\nERROR: disk failed\nline3\n".toList) ["f.log".toList]
    "line1\nERROR: disk failed\nline3\n".toList rfl rfl rfl (by decide), by decide⟩

/-- C10, counterexample.  The only line of the file `"error\r\n"` is `error\r`;
what `parseFile` prints for it is `[/f.log:1]: error` and a newline, without the
carriage return. -/
theorem parseFile_drops_carriage_return :
    fileLines "error\r\n".toList = ["error\r".toList]
      ∧ (parseFile plainEnv (fileWorld "error\r\n".toList) ["f.log".toList]).1.out
          = ["[/f.log:1]: error\n".toList] := by
  decide

/-- C10, witness: the second line of a file has mixed case, a trailing blank and
a carriage return. -/
theorem parseFile_prints_line_without_final_cr_witness :
    (∃ text : GoString,
        ("Timeout \r".toList = text ++ ['\r']
            ∨ ("Timeout \r".toList.getLast? ≠ some '\r' ∧ text = "Timeout \r".toList))
          ∧ ((parseFile plainEnv (fileWorld "ok\nTimeout \r\n".toList)
                ["f.log".toList]).1.out.drop (fileWorld "ok\nTimeout \r\n".toList).out.length)[
              ((fileLines "ok\nTimeout \r\n".toList).take 1).countP
                (fun l => decide (mentionsKeyword plainEnv l))]?
            = some ("[".toList ++ render ["f.log".toList] ++ ":".toList
                ++ (Nat.repr (1 + 1)).toList ++ "]: ".toList ++ text ++ "\n".toList))
      ∧ (parseFile plainEnv (fileWorld "ok\nTimeout \r\n".toList) ["f.log".toList]).1.out
        = ["[/f.log:2]: Timeout \n".toList] :=
  ⟨(parseFile_prints_line_without_final_cr plainEnv (fileWorld "ok\nTimeout \r\n".toList)
      ["f.log".toList] "ok\nTimeout \r\n".toList 1 "Timeout \r".toList rfl rfl rfl
      (by decide) (by decide) (by decide)).1,
   by decide⟩

/-! ## Footprints -/

theorem Extends.same (w : World) : Extends w w :=
  ⟨List.prefix_refl _, rfl, Nat.le_refl _⟩

theorem Extends.andThen {a b c : World} (h1 : Extends a b) (h2 : Extends b c) : Extends a c :=
  ⟨h1.1.trans h2.1, h2.2.1.trans h1.2.1, Nat.le_trans h1.2.2 h2.2.2⟩

theorem extends_MkdirAll (env : Env) (w : World) (p : Path) :
    Extends w (MkdirAll env w p).1 := by
  unfold MkdirAll
  split <;> simp [Extends, World.log, World.setFS, World.fail, isExtractorCall]

theorem extends_OpenFile (env : Env) (w : World) (p : Path) :
    Extends w (OpenFile env w p).1 := by
  unfold OpenFile
  repeat' split
  all_goals simp [Extends, World.log, World.setFS, World.fail, isExtractorCall]

theorem extends_Copy (env : Env) (w : World) (p : Path) (body : GoString) (r : Option Err) :
    Extends w (Copy env w p body r).1 := by
  unfold Copy
  repeat' split
  all_goals simp [Extends, World.log, World.setFS, World.fail, isExtractorCall]

theorem extends_MkdirTemp (env : Env) (w : World) (pattern : GoString) :
    Extends w (MkdirTemp env w pattern).1 := by
  unfold MkdirTemp
  split <;> simp [Extends, World.log, World.setFS, World.fail, isExtractorCall]

theorem extends_RemoveAll (w : World) (p : Path) : Extends w (RemoveAll w p) := by
  simp [RemoveAll, Extends, World.log, World.setFS, isExtractorCall]

theorem extends_print (w : World) (s : GoString) : Extends w (w.print s) := by
  simp [Extends, World.print]

theorem extends_unzipLoop (env : Env) (dest : Path) (files : List ZipEntry) (w : World) :
    Extends w (unzipLoop env dest files w).1 := by
  induction files generalizing w with
  | nil => exact Extends.same w
  | cons f rest ih =>
    unfold unzipLoop
    split
    · exact (extends_MkdirAll env w _).andThen (ih _)
    · have h1 := extends_MkdirAll env w (Dir (Join dest f.name))
      split
      · next w1 e he => rw [he] at h1; exact h1
      · next w1 he =>
        rw [he] at h1
        have h2 := extends_OpenFile env w1 (Join dest f.name)
        split
        · next w2 e he2 => rw [he2] at h2; exact h1.andThen h2
        · next w2 he2 =>
          rw [he2] at h2
          split
          · exact h1.andThen h2
          · have h3 := extends_Copy env w2 (Join dest f.name) f.body f.readErr
            split
            · next w3 e he3 => rw [he3] at h3; exact (h1.andThen h2).andThen h3
            · next w3 he3 => rw [he3] at h3; exact ((h1.andThen h2).andThen h3).andThen (ih w3)

theorem extends_untarLoop (env : Env) (dest : Path) (tail : Option Err)
    (entries : List TarEntry) (w : World) :
    Extends w (untarLoop env dest tail entries w).1 := by
  induction entries generalizing w with
  | nil => exact Extends.same w
  | cons f rest ih =>
    unfold untarLoop
    split
    · have h1 := extends_MkdirAll env w (Join dest f.name)
      split
      · next w1 e he => rw [he] at h1; exact h1
      · next w1 he => rw [he] at h1; exact h1.andThen (ih w1)
    · split
      · have h1 := extends_MkdirAll env w (Dir (Join dest f.name))
        split
        · next w1 e he => rw [he] at h1; exact h1
        · next w1 he =>
          rw [he] at h1
          have h2 := extends_OpenFile env w1 (Join dest f.name)
          split
          · next w2 e he2 => rw [he2] at h2; exact h1.andThen h2
          · next w2 he2 =>
            rw [he2] at h2
            have h3 := extends_Copy env w2 (Join dest f.name) f.body f.readErr
            split
            · next w3 e he3 => rw [he3] at h3; exact (h1.andThen h2).andThen h3
            · next w3 he3 => rw [he3] at h3; exact ((h1.andThen h2).andThen h3).andThen (ih w3)
      · exact ih w

theorem extends_parseFile (env : Env) (w : World) (p : Path) :
    Extends w (parseFile env w p).1 := by
  unfold parseFile
  repeat' split
  all_goals simp [scanLoop_eq, Extends, World.log, isExtractorCall]

theorem extends_processFile (env : Env) (w : World) (v : Visit) :
    Extends w (processFile env w v).1 := by
  unfold processFile
  repeat' split
  all_goals first | exact Extends.same w | exact extends_parseFile env w _

theorem extends_visitAll (env : Env) (vs : List Visit) (w : World) :
    Extends w (visitAll env vs w).1 := by
  induction vs generalizing w with
  | nil => exact Extends.same w
  | cons v rest ih =>
    unfold visitAll
    have h1 := extends_processFile env w v
    split
    · next w1 e he => rw [he] at h1; exact h1
    · next w1 he => rw [he] at h1; exact h1.andThen (ih w1)

theorem extends_log (w : World) (c : Call) (hc : isExtractorCall c = false) :
    Extends w (w.log c) := by
  simp [Extends, World.log, hc]

theorem extends_Walk (env : Env) (w : World) (root : Path) : Extends w (Walk env w root).1 := by
  unfold Walk
  exact (extends_log w (Call.walk root) rfl).andThen (extends_visitAll env _ _)

theorem extends_scanExtracted (env : Env) (w : World) (dest : Path) :
    Extends w (scanExtracted env w dest) := by
  unfold scanExtracted
  have h0 : Extends w ((w.print ("Extracted directory: ".toList ++ render dest
      ++ "\n".toList)).log (Call.stat dest)) :=
    (extends_print w _).andThen (extends_log _ (Call.stat dest) rfl)
  split
  · exact (h0.andThen (extends_print _ _)).andThen (extends_RemoveAll _ _)
  · have h1 := extends_Walk env ((w.print ("Extracted directory: ".toList ++ render dest
      ++ "\n".toList)).log (Call.stat dest)) dest
    split
    · next w1 e he =>
      rw [he] at h1
      exact ((h0.andThen h1).andThen (extends_print _ _)).andThen (extends_RemoveAll _ _)
    · next w1 he =>
      rw [he] at h1
      exact (h0.andThen h1).andThen (extends_RemoveAll _ _)

/-! ## Dispatch, filtering and the walk -/

theorem parseFile_calls (env : Env) (w : World) (p : Path) :
    (parseFile env w p).1.calls = w.calls ++ [Call.fileOpen p] := by
  unfold parseFile
  repeat' split
  all_goals simp [scanLoop_eq, World.log]

theorem unzip_calls (env : Env) (w : World) (src : GoString) :
    (unzip env w src).1.calls.filter isExtractorCall
      = w.calls.filter isExtractorCall ++ [Call.unzip src] := by
  have h0 : (w.log (Call.unzip src)).calls.filter isExtractorCall
      = w.calls.filter isExtractorCall ++ [Call.unzip src] := by
    simp [World.log, isExtractorCall]
  unfold unzip
  split
  · exact h0
  · next files hz =>
    have h1 := extends_MkdirTemp env (w.log (Call.unzip src)) "logs_unzip_".toList
    split
    · next w1 e he => rw [he] at h1; rw [h1.2.1, h0]
    · next w1 dest he =>
      rw [he] at h1
      have h2 := extends_unzipLoop env dest files w1
      split
      · next w2 e he2 => rw [he2] at h2; rw [h2.2.1, h1.2.1, h0]
      · next w2 he2 => rw [he2] at h2; rw [h2.2.1, h1.2.1, h0]

theorem untar_calls (env : Env) (w : World) (src : GoString) :
    (untar env w src).1.calls.filter isExtractorCall
      = w.calls.filter isExtractorCall ++ [Call.untar src] := by
  have h0 : (w.log (Call.untar src)).calls.filter isExtractorCall
      = w.calls.filter isExtractorCall ++ [Call.untar src] := by
    simp [World.log, isExtractorCall]
  unfold untar
  split
  · exact h0
  · next tf hz =>
    have h1 := extends_MkdirTemp env (w.log (Call.untar src)) "logs_untar_".toList
    split
    · next w1 e he => rw [he] at h1; rw [h1.2.1, h0]
    · next w1 dest he =>
      rw [he] at h1
      have h2 := extends_untarLoop env dest tf.tail tf.entries w1
      split
      · next w2 e he2 => rw [he2] at h2; rw [h2.2.1, h1.2.1, h0]
      · next w2 he2 => rw [he2] at h2; rw [h2.2.1, h1.2.1, h0]

/-- C3.  With an archive path on the command line: when `filepath.Ext` of the
path is `.zip`, `main` is what follows a call of `unzip` on that path (the error
message if it fails, the scan of the directory it returns otherwise); when it
is `.tar`, the same with `untar`; for every other extension `main` only prints
the unsupported-format message, leaving the file system, the log of calls and
the failure count untouched, so that no temporary directory is made and
nothing is walked or scanned.  The extractors entered in the whole run are
`unzip` on that path, once, in the first case, `untar` on that path, once, in
the second, and none in the third. -/
theorem main_dispatches_by_extension (env : Env) (w : World) (prog inputFile : GoString)
    (rest : List GoString) :
    (Ext inputFile = ".zip".toList →
        main env w (prog :: inputFile :: rest)
          = match unzip env w inputFile with
            | (w1, Except.error e) =>
              w1.print ("unzip error: ".toList ++ env.errorText e ++ "\n".toList)
            | (w1, Except.ok destDir) => scanExtracted env w1 destDir)
      ∧ (Ext inputFile ≠ ".zip".toList → Ext inputFile = ".tar".toList →
        main env w (prog :: inputFile :: rest)
          = match untar env w inputFile with
            | (w1, Except.error e) =>
              w1.print ("untar error: ".toList ++ env.errorText e ++ "\n".toList)
            | (w1, Except.ok destDir) => scanExtracted env w1 destDir)
      ∧ (Ext inputFile ≠ ".zip".toList → Ext inputFile ≠ ".tar".toList →
          main env w (prog :: inputFile :: rest)
            = { w with out := w.out
                  ++ ["Unsupported file type. Only .zip and .tar supported.\n".toList] })
      ∧ (main env w (prog :: inputFile :: rest)).calls.filter isExtractorCall
        = w.calls.filter isExtractorCall ++
          (if Ext inputFile = ".zip".toList then [Call.unzip inputFile]
           else if Ext inputFile = ".tar".toList then [Call.untar inputFile]
           else []) := by
  refine ⟨?_, ?_, ?_, ?_⟩
  · intro hz
    unfold main
    simp only
    rw [if_pos hz]
  · intro hz ht
    unfold main
    simp only
    rw [if_neg hz, if_pos ht]
  · intro hz ht
    unfold main
    simp only
    rw [if_neg hz, if_neg ht]
    rfl
  · unfold main
    simp only
    by_cases hz : Ext inputFile = ".zip".toList
    · rw [if_pos hz, if_pos hz]
      have h1 := unzip_calls env w inputFile
      split
      · next w1 e he => rw [he] at h1; simpa [World.print] using h1
      · next w1 dest he =>
        rw [he] at h1
        rw [(extends_scanExtracted env w1 dest).2.1, h1]
    · rw [if_neg hz, if_neg hz]
      by_cases ht : Ext inputFile = ".tar".toList
      · rw [if_pos ht, if_pos ht]
        have h1 := untar_calls env w inputFile
        split
        · next w1 e he => rw [he] at h1; simpa [World.print] using h1
        · next w1 dest he =>
          rw [he] at h1
          rw [(extends_scanExtracted env w1 dest).2.1, h1]
      · rw [if_neg ht, if_neg ht]
        simp [World.print]

/-- C4.  For a node delivered without an incoming walk error: if it is not a
directory and the lower-cased extension of its path is `.log` or `.txt`,
`processFile` is `parseFile` on that path and opens the file; in every other
case (a directory, whatever its name, or a file with another extension)
`processFile` returns success and leaves the world as it was, so the file is
not opened. -/
theorem processFile_scans_only_log_and_txt_files (env : Env) (w : World) (v : Visit)
    (herr : v.err = none) :
    ((v.info.isDir = false
        ∧ (ToLower env.unicodeToLower (Ext (render v.path)) = ".log".toList
          ∨ ToLower env.unicodeToLower (Ext (render v.path)) = ".txt".toList)) →
      processFile env w v = parseFile env w v.path
        ∧ (processFile env w v).1.calls = w.calls ++ [Call.fileOpen v.path])
    ∧ (¬ (v.info.isDir = false
        ∧ (ToLower env.unicodeToLower (Ext (render v.path)) = ".log".toList
          ∨ ToLower env.unicodeToLower (Ext (render v.path)) = ".txt".toList)) →
      processFile env w v = (w, none)) := by
  constructor
  · rintro ⟨hd, hext⟩
    have : processFile env w v = parseFile env w v.path := by
      unfold processFile
      rw [herr]
      simp only [hd, Bool.false_eq_true, if_false]
      rw [if_pos hext]
    rw [this]
    exact ⟨rfl, parseFile_calls env w v.path⟩
  · intro hn
    unfold processFile
    rw [herr]
    simp only
    by_cases hd : v.info.isDir = true
    · rw [if_pos hd]
    · rw [if_neg hd]
      have hd2 : v.info.isDir = false := by simpa using hd
      have hext : ¬ (ToLower env.unicodeToLower (Ext (render v.path)) = ".log".toList
          ∨ ToLower env.unicodeToLower (Ext (render v.path)) = ".txt".toList) :=
        fun h => hn ⟨hd2, h⟩
      rw [if_neg hext]

theorem visitAll_append_fail (env : Env) (pre : List Visit) (k : Visit) (post : List Visit)
    (w w1 w2 : World) (e : Err)
    (hpre : visitAll env pre w = (w1, none)) (hk : processFile env w1 k = (w2, some e)) :
    visitAll env (pre ++ k :: post) w = (w2, some e) := by
  induction pre generalizing w with
  | nil =>
    simp only [visitAll, Prod.mk.injEq, and_true] at hpre
    subst hpre
    simp only [List.nil_append, visitAll, hk]
  | cons v vs ih =>
    simp only [List.cons_append, visitAll] at hpre ⊢
    split at hpre
    · next w' e' he => simp at hpre
    · next w' he => exact ih w' hpre

theorem parseFile_fs (env : Env) (w : World) (p : Path) : (parseFile env w p).1.fs = w.fs := by
  unfold parseFile
  repeat' split
  all_goals simp [scanLoop_eq, World.log]

theorem processFile_fs (env : Env) (w : World) (v : Visit) :
    (processFile env w v).1.fs = w.fs := by
  unfold processFile
  repeat' split
  all_goals first | rfl | exact parseFile_fs env w _

theorem visitAll_fs (env : Env) (vs : List Visit) (w : World) :
    (visitAll env vs w).1.fs = w.fs := by
  induction vs generalizing w with
  | nil => rfl
  | cons v rest ih =>
    unfold visitAll
    have h1 := processFile_fs env w v
    split
    · next w1 e he => rw [he] at h1; exact h1
    · next w1 he => rw [he] at h1; rw [ih w1]; exact h1

theorem walk_aborts_when_processFile_fails (env : Env) (w : World) (dest : Path)
    (pre : List Visit) (k : Visit) (post : List Visit) (w1 w2 : World) (e : Err)
    (hexists : FS.stat w.fs dest ≠ none)
    (hvisits : walkVisits env w.fs dest = pre ++ k :: post)
    (hpre : visitAll env pre
        (((w.print ("Extracted directory: ".toList ++ render dest ++ "\n".toList)).log
          (Call.stat dest)).log (Call.walk dest)) = (w1, none))
    (hk : processFile env w1 k = (w2, some e)) :
    Walk env ((w.print ("Extracted directory: ".toList ++ render dest ++ "\n".toList)).log
        (Call.stat dest)) dest = (w2, some e)
      ∧ (∀ post2 : List Visit,
          visitAll env (pre ++ k :: post2)
            (((w.print ("Extracted directory: ".toList ++ render dest ++ "\n".toList)).log
              (Call.stat dest)).log (Call.walk dest)) = (w2, some e))
      ∧ (scanExtracted env w dest).out
          = w2.out ++ ["Traversal error: ".toList ++ env.errorText e ++ "\n".toList]
      ∧ w1.out <+: w2.out
      ∧ (w.out ++ ["Extracted directory: ".toList ++ render dest ++ "\n".toList]) <+: w1.out := by
  have hwalk : Walk env ((w.print ("Extracted directory: ".toList ++ render dest
      ++ "\n".toList)).log (Call.stat dest)) dest = (w2, some e) := by
    unfold Walk
    have hfs : ((w.print ("Extracted directory: ".toList ++ render dest ++ "\n".toList)).log
        (Call.stat dest)).fs = w.fs := rfl
    rw [hfs, hvisits]
    exact visitAll_append_fail env pre k post _ w1 w2 e hpre hk
  refine ⟨hwalk, fun post2 => visitAll_append_fail env pre k post2 _ w1 w2 e hpre hk, ?_, ?_, ?_⟩
  · unfold scanExtracted
    split
    · next hnone => exact absurd hnone hexists
    · rw [hwalk]
      simp [RemoveAll, World.log, World.setFS, World.print]
  · have := extends_processFile env w1 k
    rw [hk] at this
    exact this.1
  · have := extends_visitAll env pre
      (((w.print ("Extracted directory: ".toList ++ render dest ++ "\n".toList)).log
        (Call.stat dest)).log (Call.walk dest))
    rw [hpre] at this
    exact this.1


theorem readAll_none_iff (env : Env) (fs : FS) (p : Path) :
    readAll env fs p = none ↔ FS.stat fs p = none := by
  unfold readAll
  cases hs : FS.stat fs p with
  | none => simp
  | some nd =>
    cases nd with
    | dir => simp
    | file data =>
      simp only [reduceCtorEq, iff_false]
      repeat' split
      all_goals simp

theorem parseFile_fails_iff (env : Env) (w : World) (p : Path) (e : Err) :
    (parseFile env w p).2 = some e ↔
      (env.openFault p = some e
        ∨ (env.openFault p = none ∧ FS.stat w.fs p = none ∧ e = Err.notExist))
      ∨ (env.openFault p = none
        ∧ ∃ (data : GoString) (readErr : Option Err),
            readAll env w.fs p = some (data, readErr) ∧ scanErr data readErr = some e) := by
  unfold parseFile
  cases ho : env.openFault p with
  | some e1 => simp
  | none =>
    simp only [reduceCtorEq, false_or, true_and]
    cases hr : readAll env w.fs p with
    | none =>
      have hs := (readAll_none_iff env w.fs p).mp hr
      simp [hs, eq_comm]
    | some dr =>
      obtain ⟨data, readErr⟩ := dr
      have hs : FS.stat w.fs p ≠ none := fun hn => by
        rw [(readAll_none_iff env w.fs p).mpr hn] at hr
        exact absurd hr (by simp)
      simp only [hs, false_and, false_or, Option.some.injEq, Prod.mk.injEq]
      constructor
      · intro h
        exact ⟨data, readErr, ⟨rfl, rfl⟩, h⟩
      · rintro ⟨d2, r2, ⟨h1, h2⟩, h3⟩
        subst h1 h2
        exact h3

theorem processFile_of_scannable (env : Env) (w : World) (k : Visit) (hke : k.err = none)
    (hsc : scannable env k) : processFile env w k = parseFile env w k.path := by
  unfold processFile
  rw [hke]
  simp only
  rw [if_neg (by rw [hsc.1]; simp), if_pos hsc.2]

theorem processFile_of_not_scannable (env : Env) (w : World) (k : Visit) (hke : k.err = none)
    (hsc : ¬ scannable env k) : processFile env w k = (w, none) := by
  unfold processFile
  rw [hke]
  simp only
  by_cases hd : k.info.isDir = true
  · rw [if_pos hd]
  · rw [if_neg hd]
    have hd2 : k.info.isDir = false := by simpa using hd
    rw [if_neg (fun hx => hsc ⟨hd2, hx⟩)]

/-- The walk function fails on a node exactly for one of the three causes. -/
theorem processFile_fails_iff (env : Env) (w : World) (k : Visit) (e : Err) :
    (processFile env w k).2 = some e ↔ FailureCause env w.fs k e := by
  unfold FailureCause
  cases hke : k.err with
  | some e1 =>
    have : processFile env w k = (w, some e1) := by
      unfold processFile
      rw [hke]
    rw [this]
    simp
  | none =>
    simp only [reduceCtorEq, false_or, true_and]
    by_cases hsc : scannable env k
    · rw [processFile_of_scannable env w k hke hsc, parseFile_fails_iff]
      simp only [hsc, true_and]
    · rw [processFile_of_not_scannable env w k hke hsc]
      simp only [hsc, false_and, or_self, iff_false]
      simp

/-- C8.  Let the walk of the extracted directory deliver `pre`, then `k`, then
`post`; let `processFile` succeed on every node of `pre`, and let node `k` fail
with `e` for one of the three causes: the walk delivers it with the error `e`,
its file cannot be opened, or the scanner ends with `e` (a failed read, a
line too long).  Then `processFile` returns `e` on `k`; the walk returns `e` in
the world reached after `k`, whatever follows `k` (no later node is
processed); the pipeline's output is the output up to that point followed by
`Traversal error: e`; the output before `k`, and the one before the walk, are
prefixes of it; with an incoming error nothing is done on `k`, and with a
scanner error the matches of the lines of `k` delivered before it are in the
output. -/
theorem walk_stops_at_first_failure (env : Env) (w : World) (dest : Path)
    (pre : List Visit) (k : Visit) (post : List Visit) (w1 : World) (e : Err)
    (hexists : FS.stat w.fs dest ≠ none)
    (hvisits : walkVisits env w.fs dest = pre ++ k :: post)
    (hpre : visitAll env pre
        (((w.print ("Extracted directory: ".toList ++ render dest ++ "\n".toList)).log
          (Call.stat dest)).log (Call.walk dest)) = (w1, none))
    (hcause : FailureCause env w.fs k e) :
    (processFile env w1 k).2 = some e
      ∧ Walk env ((w.print ("Extracted directory: ".toList ++ render dest ++ "\n".toList)).log
          (Call.stat dest)) dest = ((processFile env w1 k).1, some e)
      ∧ (∀ post2 : List Visit,
          visitAll env (pre ++ k :: post2)
            (((w.print ("Extracted directory: ".toList ++ render dest ++ "\n".toList)).log
              (Call.stat dest)).log (Call.walk dest)) = ((processFile env w1 k).1, some e))
      ∧ (scanExtracted env w dest).out
          = (processFile env w1 k).1.out
            ++ ["Traversal error: ".toList ++ env.errorText e ++ "\n".toList]
      ∧ w1.out <+: (processFile env w1 k).1.out
      ∧ (w.out ++ ["Extracted directory: ".toList ++ render dest ++ "\n".toList]) <+: w1.out
      ∧ (k.err = some e → (processFile env w1 k).1 = w1)
      ∧ (∀ (data : GoString) (readErr : Option Err),
          k.err = none → scannable env k → env.openFault k.path = none →
          readAll env w.fs k.path = some (data, readErr) →
          (processFile env w1 k).1.out
            = w1.out ++ ((scanFrom [] data).1.enumFrom 1).filterMap (fun x =>
                if hasKeyword env x.2 then some (matchLine (render k.path) x.1 x.2)
                else none)) := by
  have hfs : w1.fs = w.fs := by
    have := visitAll_fs env pre
      (((w.print ("Extracted directory: ".toList ++ render dest ++ "\n".toList)).log
        (Call.stat dest)).log (Call.walk dest))
    rw [hpre] at this
    exact this
  have hfail : (processFile env w1 k).2 = some e := by
    rw [processFile_fails_iff, hfs]
    exact hcause
  have hk : processFile env w1 k = ((processFile env w1 k).1, some e) := by
    rw [← hfail]
  obtain ⟨a1, a2, a3, a4, a5⟩ :=
    walk_aborts_when_processFile_fails env w dest pre k post w1 (processFile env w1 k).1 e
      hexists hvisits hpre hk
  refine ⟨hfail, a1, a2, a3, a4, a5, ?_, ?_⟩
  · intro hke
    unfold processFile
    rw [hke]
  · intro data readErr hke hsc hopen hread
    unfold processFile
    rw [hke]
    simp only
    rw [if_neg (by rw [hsc.1]; simp), if_pos hsc.2]
    unfold parseFile
    rw [hopen, hfs, hread]
    simp only
    rw [scanLoop_eq]
    rfl

/-! ## File-system operations -/

theorem stat_cons_ne (fs : FS) (p q : Path) (n : Node) (h : q ≠ p) :
    FS.stat ((p, n) :: fs) q = FS.stat fs q := by
  unfold FS.stat
  by_cases hq : q = []
  · simp [hq]
  · have hb : (q == p) = false := by simpa using h
    simp [hq, List.lookup, hb]

theorem stat_cons_self (fs : FS) (p : Path) (n : Node) (h : p ≠ []) :
    FS.stat ((p, n) :: fs) p = some n := by
  unfold FS.stat
  simp [h, List.lookup]

theorem stat_none_ne_nil {fs : FS} {p : Path} (h : FS.stat fs p = none) : p ≠ [] := by
  intro hp
  subst hp
  simp [FS.stat] at h

theorem Mkdir_ok {env : Env} {fs fs2 : FS} {p : Path} (h : Mkdir env fs p = Except.ok fs2) :
    fs2 = (p, Node.dir) :: fs ∧ FS.stat fs p = none ∧ FS.stat fs p.dropLast = some Node.dir := by
  unfold Mkdir at h
  split at h
  · simp at h
  · split at h
    · simp at h
    · next hs =>
      split at h
      · next hp =>
        simp only [Except.ok.injEq] at h
        exact ⟨h.symm, hs, hp⟩
      · simp at h
      · simp at h

/-- What `MkdirAll` does to the file system: every node stays as it is, and a
node that appears is a directory on the way to `p`, below every ancestor of `p`
that existed. -/
theorem mkdirAllRev_spec (env : Env) (rev : List GoString) (fs : FS) (q : Path) :
    FS.stat (mkdirAllRev env rev fs).1 q = FS.stat fs q
      ∨ (FS.stat fs q = none ∧ FS.stat (mkdirAllRev env rev fs).1 q = some Node.dir
          ∧ q <+: rev.reverse
          ∧ ∀ d : Path, d <+: rev.reverse → FS.stat fs d ≠ none → d <+: q) := by
  induction rev generalizing q with
  | nil => left; rfl
  | cons seg parentRev ih =>
    have hrev : (seg :: parentRev).reverse = parentRev.reverse ++ [seg] := by simp
    -- what holds of the parent's run holds of this one when the path itself is absent
    have lift : FS.stat fs (seg :: parentRev).reverse = none → ∀ q : Path,
        (FS.stat (mkdirAllRev env parentRev fs).1 q = FS.stat fs q
          ∨ (FS.stat fs q = none ∧ FS.stat (mkdirAllRev env parentRev fs).1 q = some Node.dir
              ∧ q <+: (seg :: parentRev).reverse
              ∧ ∀ d : Path, d <+: (seg :: parentRev).reverse → FS.stat fs d ≠ none → d <+: q)) := by
      intro hnone q
      rcases ih q with h | ⟨h1, h2, h3, h4⟩
      · exact Or.inl h
      · refine Or.inr ⟨h1, h2, ?_, ?_⟩
        · rw [hrev]; exact h3.trans (List.prefix_append _ _)
        · intro d hd hex
          rw [hrev, List.prefix_concat_iff] at hd
          rcases hd with hd | hd
          · rw [hd, ← hrev] at hex; exact absurd hnone hex
          · exact h4 d hd hex
    unfold mkdirAllRev
    split
    · left; rfl
    · left; rfl
    · next hnone =>
      split
      · next fs1 e he =>
        have := lift hnone q
        rw [he] at this
        exact this
      · next fs1 he =>
        have hl := lift hnone q
        rw [he] at hl
        split
        · next fs2 hm =>
          obtain ⟨hfs2, hp1, _⟩ := Mkdir_ok hm
          subst hfs2
          by_cases hq : q = (seg :: parentRev).reverse
          · subst hq
            right
            refine ⟨hnone, stat_cons_self _ _ _ (stat_none_ne_nil hnone), List.prefix_refl _, ?_⟩
            intro d hd _
            exact hd
          · simp only [stat_cons_ne _ _ _ _ hq]
            exact hl
        · split
          · exact hl
          · exact hl

theorem mkdirAllRev_keeps (env : Env) (rev : List GoString) (fs : FS) (q : Path)
    (h : FS.stat fs q ≠ none) : FS.stat (mkdirAllRev env rev fs).1 q = FS.stat fs q := by
  rcases mkdirAllRev_spec env rev fs q with h1 | ⟨h1, _⟩
  · exact h1
  · exact absurd h1 h

theorem mkdirAllRev_files (env : Env) (rev : List GoString) (fs : FS) (q : Path)
    (data : GoString) :
    FS.stat (mkdirAllRev env rev fs).1 q = some (Node.file data)
      ↔ FS.stat fs q = some (Node.file data) := by
  rcases mkdirAllRev_spec env rev fs q with h1 | ⟨h1, h2, _⟩
  · rw [h1]
  · rw [h1, h2]; simp

theorem MkdirAll_eq (env : Env) (w : World) (p : Path) :
    MkdirAll env w p =
      ({ fs := (mkdirAllRev env p.reverse w.fs).1, out := w.out,
         calls := w.calls ++ [Call.mkdirAll p],
         failures := w.failures + (if (mkdirAllRev env p.reverse w.fs).2 = none then 0 else 1) },
        (mkdirAllRev env p.reverse w.fs).2) := by
  unfold MkdirAll
  split
  · next fs1 he => simp [he, World.log, World.setFS]
  · next fs1 e he => simp [he, World.log, World.setFS, World.fail]

theorem OpenFile_ok {env : Env} {w w2 : World} {p : Path} (h : OpenFile env w p = (w2, none)) :
    w2 = { fs := (p, Node.file []) :: w.fs, out := w.out, calls := w.calls ++ [Call.create p],
           failures := w.failures }
      ∧ FS.stat w.fs p ≠ some Node.dir := by
  unfold OpenFile at h
  split at h
  · simp at h
  · split at h
    · simp at h
    · next hs =>
      simp only [Prod.mk.injEq, and_true] at h
      subst h
      exact ⟨rfl, by rw [hs]; simp⟩
    · next hs =>
      split at h
      · simp only [Prod.mk.injEq, and_true] at h
        subst h
        exact ⟨rfl, by rw [hs]; simp⟩
      · simp at h
      · simp at h

theorem OpenFile_err {env : Env} {w w2 : World} {p : Path} {e : Err}
    (h : OpenFile env w p = (w2, some e)) :
    w2.fs = w.fs ∧ w2.failures = w.failures + 1 := by
  unfold OpenFile at h
  repeat' split at h
  all_goals simp only [Prod.mk.injEq, reduceCtorEq, and_false, Option.some.injEq] at h
  all_goals (obtain ⟨h1, _⟩ := h; subst h1; exact ⟨rfl, rfl⟩)

theorem Copy_ok {env : Env} {w w3 : World} {p : Path} {body : GoString} {r : Option Err}
    (h : Copy env w p body r = (w3, none)) :
    w3 = { fs := (p, Node.file body) :: w.fs, out := w.out, calls := w.calls ++ [Call.copy p],
           failures := w.failures } := by
  unfold Copy at h
  repeat' split at h
  all_goals simp only [Prod.mk.injEq, reduceCtorEq, and_false] at h
  all_goals (obtain ⟨h1, _⟩ := h; subst h1; rfl)

theorem Copy_err {env : Env} {w w3 : World} {p : Path} {body : GoString} {r : Option Err}
    {e : Err} (h : Copy env w p body r = (w3, some e)) :
    (∃ data, w3.fs = (p, Node.file data) :: w.fs)
      ∧ (w3.failures = w.failures + 1 ∨ (r = some e ∧ w3.failures = w.failures)) := by
  unfold Copy at h
  repeat' split at h
  all_goals simp only [Prod.mk.injEq] at h
  all_goals obtain ⟨h1, h2⟩ := h
  all_goals subst h1
  · exact ⟨⟨_, rfl⟩, Or.inl rfl⟩
  · exact ⟨⟨_, rfl⟩, Or.inr ⟨h2, rfl⟩⟩
  · exact ⟨⟨_, rfl⟩, Or.inr ⟨h2, rfl⟩⟩

/-! ## Extraction and the destination root -/

theorem Keeps.still {dest : Path} {fs : FS} (h : FS.stat fs dest = some Node.dir) :
    Keeps dest fs fs := ⟨h, fun _ _ => rfl⟩

theorem Keeps.chain {dest : Path} {a b c : FS} (h1 : Keeps dest a b) (h2 : Keeps dest b c) :
    Keeps dest a c :=
  ⟨h2.1, fun q hq => (h2.2 q hq).trans (h1.2 q hq)⟩

theorem Keeps.parent {dest : Path} {a b : FS} (h : Keeps dest a b)
    (hpar : FS.stat a dest.dropLast ≠ none) : FS.stat b dest.dropLast ≠ none := by
  by_cases hd : dest = []
  · subst hd; simp [FS.stat]
  · have hout : ¬ dest <+: dest.dropLast := by
      intro hpre
      have h1 := hpre.length_le
      have h2 : 0 < dest.length := List.length_pos.mpr hd
      rw [List.length_dropLast] at h1
      omega
    rw [h.2 _ hout]
    exact hpar

theorem prefix_dropLast_of_ne {dest p : Path} (hp : dest <+: p) (hne : p ≠ dest) :
    dest <+: p.dropLast := by
  obtain ⟨t, ht⟩ := hp
  subst ht
  have htne : t ≠ [] := by
    intro h; subst h; simp at hne
  rw [List.dropLast_append_of_ne_nil _ htne]
  exact List.prefix_append _ _

theorem keeps_mkdirAll (env : Env) (dest p : Path) (fs : FS)
    (hdest : FS.stat fs dest = some Node.dir) (hp : dest <+: p) :
    Keeps dest fs (mkdirAllRev env p.reverse fs).1 := by
  refine ⟨?_, fun q hq => ?_⟩
  · rw [mkdirAllRev_keeps env _ fs dest (by rw [hdest]; simp)]
    exact hdest
  · rcases mkdirAllRev_spec env p.reverse fs q with h | ⟨_, _, _, h4⟩
    · exact h
    · rw [List.reverse_reverse] at h4
      exact absurd (h4 dest hp (by rw [hdest]; simp)) hq

theorem keeps_mkdirAll_dir (env : Env) (dest p : Path) (fs : FS)
    (hdest : FS.stat fs dest = some Node.dir) (hpar : FS.stat fs dest.dropLast ≠ none)
    (hp : dest <+: p) :
    Keeps dest fs (mkdirAllRev env (Dir p).reverse fs).1 := by
  by_cases hne : p = dest
  · subst hne
    refine ⟨?_, fun q _ => ?_⟩
    · rw [mkdirAllRev_keeps env _ fs p (by rw [hdest]; simp)]
      exact hdest
    · rcases mkdirAllRev_spec env (Dir p).reverse fs q with h | ⟨h1, _, h3, h4⟩
      · exact h
      · rw [List.reverse_reverse] at h3 h4
        have h5 := h4 (Dir p) (List.prefix_refl _) hpar
        have h6 : q = Dir p :=
          List.IsPrefix.eq_of_length h3 (Nat.le_antisymm h3.length_le h5.length_le)
        rw [h6] at h1
        exact absurd h1 hpar
  · exact keeps_mkdirAll env dest (Dir p) fs hdest (prefix_dropLast_of_ne hp hne)

theorem keeps_cons (dest p : Path) (fs : FS) (n : Node)
    (hdest : FS.stat fs dest = some Node.dir) (hp : dest <+: p) (hne : p ≠ dest) :
    Keeps dest fs ((p, n) :: fs) := by
  refine ⟨?_, fun q hq => ?_⟩
  · rw [stat_cons_ne _ _ _ _ (Ne.symm hne)]; exact hdest
  · have : q ≠ p := by
      intro h; subst h; exact hq hp
    exact stat_cons_ne _ _ _ _ this

/-- Materializing a file at a path `p` inside `dest` (make the parent, create
the file, copy the contents) keeps `dest` and everything outside it,
whichever step it stops at. -/
theorem keeps_file_steps (env : Env) (dest p : Path) (w : World) (body : GoString)
    (r : Option Err)
    (hdest : FS.stat w.fs dest = some Node.dir) (hpar : FS.stat w.fs dest.dropLast ≠ none)
    (hp : dest <+: p) :
    Keeps dest w.fs (MkdirAll env w (Dir p)).1.fs
      ∧ Keeps dest w.fs (OpenFile env (MkdirAll env w (Dir p)).1 p).1.fs
      ∧ ((OpenFile env (MkdirAll env w (Dir p)).1 p).2 = none →
          Keeps dest w.fs
            (Copy env (OpenFile env (MkdirAll env w (Dir p)).1 p).1 p body r).1.fs) := by
  have h1 : Keeps dest w.fs (MkdirAll env w (Dir p)).1.fs := by
    rw [MkdirAll_eq]
    exact keeps_mkdirAll_dir env dest p w.fs hdest hpar hp
  have h2 : Keeps dest w.fs (OpenFile env (MkdirAll env w (Dir p)).1 p).1.fs
      ∧ ((OpenFile env (MkdirAll env w (Dir p)).1 p).2 = none →
          Keeps dest w.fs
            (Copy env (OpenFile env (MkdirAll env w (Dir p)).1 p).1 p body r).1.fs) := by
    generalize (MkdirAll env w (Dir p)).1 = w1 at h1
    rcases ho : OpenFile env w1 p with ⟨w2, _ | e⟩
    · obtain ⟨hw2, hnd⟩ := OpenFile_ok ho
      have hne : p ≠ dest := by
        intro h; rw [h] at hnd; exact hnd h1.1
      have hk2 : Keeps dest w.fs w2.fs := by
        rw [hw2]
        exact h1.chain (keeps_cons dest p w1.fs _ h1.1 hp hne)
      refine ⟨hk2, fun _ => ?_⟩
      simp only
      rcases hc : Copy env w2 p body r with ⟨w3, _ | e⟩
      · rw [Copy_ok hc]
        exact hk2.chain (keeps_cons dest p w2.fs _ hk2.1 hp hne)
      · obtain ⟨⟨data, hd⟩, _⟩ := Copy_err hc
        simp only
        rw [hd]
        exact hk2.chain (keeps_cons dest p w2.fs _ hk2.1 hp hne)
    · refine ⟨?_, fun h => by simp at h⟩
      rw [(OpenFile_err ho).1]
      exact h1
  exact ⟨h1, h2.1, h2.2⟩

theorem keeps_unzipLoop (env : Env) (dest : Path) (files : List ZipEntry) (w : World)
    (hdest : FS.stat w.fs dest = some Node.dir) (hpar : FS.stat w.fs dest.dropLast ≠ none)
    (hin : ∀ f ∈ files, dest <+: Join dest f.name) :
    Keeps dest w.fs (unzipLoop env dest files w).1.fs := by
  induction files generalizing w with
  | nil => exact Keeps.still hdest
  | cons f rest ih =>
    have hp : dest <+: Join dest f.name := hin f (List.mem_cons_self _ _)
    have hrest : ∀ g ∈ rest, dest <+: Join dest g.name :=
      fun g hg => hin g (List.mem_cons_of_mem _ hg)
    unfold unzipLoop
    split
    · have h1 : Keeps dest w.fs (MkdirAll env w (Join dest f.name)).1.fs := by
        rw [MkdirAll_eq]
        exact keeps_mkdirAll env dest _ w.fs hdest hp
      exact h1.chain (ih _ h1.1 (h1.parent hpar) hrest)
    · have hs := keeps_file_steps env dest (Join dest f.name) w f.body f.readErr hdest hpar hp
      split
      · next w1 e he => simp only [he] at hs; exact hs.1
      · next w1 he =>
        simp only [he] at hs
        split
        · next w2 e he2 => simp only [he2] at hs; exact hs.2.1
        · next w2 he2 =>
          simp only [he2, true_implies] at hs
          split
          · exact hs.2.1
          · split
            · next w3 e he3 => simp only [he3] at hs; exact hs.2.2
            · next w3 he3 =>
              simp only [he3] at hs
              exact hs.2.2.chain (ih w3 hs.2.2.1 (hs.2.2.parent hpar) hrest)

theorem keeps_untarLoop (env : Env) (dest : Path) (tail : Option Err) (entries : List TarEntry)
    (w : World)
    (hdest : FS.stat w.fs dest = some Node.dir) (hpar : FS.stat w.fs dest.dropLast ≠ none)
    (hin : ∀ h ∈ entries, dest <+: Join dest h.name) :
    Keeps dest w.fs (untarLoop env dest tail entries w).1.fs := by
  induction entries generalizing w with
  | nil => exact Keeps.still hdest
  | cons f rest ih =>
    have hp : dest <+: Join dest f.name := hin f (List.mem_cons_self _ _)
    have hrest : ∀ g ∈ rest, dest <+: Join dest g.name :=
      fun g hg => hin g (List.mem_cons_of_mem _ hg)
    unfold untarLoop
    split
    · have h1 : Keeps dest w.fs (MkdirAll env w (Join dest f.name)).1.fs := by
        rw [MkdirAll_eq]
        exact keeps_mkdirAll env dest _ w.fs hdest hp
      split
      · next w1 e he => simp only [he] at h1; exact h1
      · next w1 he =>
        simp only [he] at h1
        exact h1.chain (ih _ h1.1 (h1.parent hpar) hrest)
    · split
      · have hs := keeps_file_steps env dest (Join dest f.name) w f.body f.readErr hdest hpar hp
        split
        · next w1 e he => simp only [he] at hs; exact hs.1
        · next w1 he =>
          simp only [he] at hs
          split
          · next w2 e he2 => simp only [he2] at hs; exact hs.2.1
          · next w2 he2 =>
            simp only [he2, true_implies] at hs
            split
            · next w3 e he3 => simp only [he3] at hs; exact hs.2.2
            · next w3 he3 =>
              simp only [he3] at hs
              exact hs.2.2.chain (ih w3 hs.2.2.1 (hs.2.2.parent hpar) hrest)
      · exact ih w hdest hpar hrest

theorem mkdirTempLoop_ok {env : Env} {pattern : GoString} {fuel attempt : Nat} {fs fs1 : FS}
    {dest : Path} (h : mkdirTempLoop env pattern fuel attempt fs = Except.ok (fs1, dest)) :
    fs1 = (dest, Node.dir) :: fs ∧ FS.stat fs dest = none
      ∧ FS.stat fs dest.dropLast = some Node.dir := by
  induction fuel generalizing attempt with
  | zero => simp [mkdirTempLoop] at h
  | succ n ih =>
    unfold mkdirTempLoop at h
    split at h
    · next fs2 hm =>
      simp only [Except.ok.injEq, Prod.mk.injEq] at h
      obtain ⟨h1, h2⟩ := h
      subst h1 h2
      exact Mkdir_ok hm
    · split at h
      · exact ih h
      · simp at h

theorem MkdirTemp_ok {env : Env} {w w1 : World} {pattern : GoString} {dest : Path}
    (h : MkdirTemp env w pattern = (w1, Except.ok dest)) :
    w1 = { fs := (dest, Node.dir) :: w.fs, out := w.out,
           calls := w.calls ++ [Call.mkdirTemp pattern], failures := w.failures }
      ∧ FS.stat w.fs dest = none ∧ FS.stat w.fs dest.dropLast = some Node.dir := by
  unfold MkdirTemp at h
  split at h
  · next fs1 d hm =>
    simp only [Prod.mk.injEq, Except.ok.injEq] at h
    obtain ⟨h1, h2⟩ := h
    subst h1 h2
    obtain ⟨hfs, hn, hp⟩ := mkdirTempLoop_ok hm
    subst hfs
    exact ⟨rfl, hn, hp⟩
  · simp at h

theorem MkdirTemp_err {env : Env} {w w1 : World} {pattern : GoString} {e : Err}
    (h : MkdirTemp env w pattern = (w1, Except.error e)) :
    w1.fs = w.fs ∧ w1.failures = w.failures + 1 := by
  unfold MkdirTemp at h
  split at h
  · simp at h
  · simp only [Prod.mk.injEq] at h
    obtain ⟨h1, _⟩ := h
    subst h1
    exact ⟨rfl, rfl⟩

/-- After `MkdirTemp` made `dest`, the new directory is there and the rest of
the file system is as before. -/
theorem keeps_after_MkdirTemp {fs : FS} {dest : Path} (hn : FS.stat fs dest = none)
    (hp : FS.stat fs dest.dropLast = some Node.dir) :
    FS.stat ((dest, Node.dir) :: fs) dest = some Node.dir
      ∧ FS.stat ((dest, Node.dir) :: fs) dest.dropLast ≠ none
      ∧ ∀ q : Path, ¬ dest <+: q → FS.stat ((dest, Node.dir) :: fs) q = FS.stat fs q := by
  have hne := stat_none_ne_nil hn
  have hdl : dest.dropLast ≠ dest := by
    intro h
    have := congrArg List.length h
    rw [List.length_dropLast] at this
    have : 0 < dest.length := List.length_pos.mpr hne
    omega
  refine ⟨stat_cons_self _ _ _ hne, ?_, fun q hq => ?_⟩
  · rw [stat_cons_ne _ _ _ _ hdl, hp]; simp
  · have : q ≠ dest := by
      intro h; subst h; exact hq (List.prefix_refl _)
    exact stat_cons_ne _ _ _ _ this

/-- C1, amended.  Extraction does not check where an entry resolves.  What
holds is: if the joined path of every entry of the archive lies inside the
freshly made destination root `dest`, then every path `q` outside `dest` is
after `unzip` (`untar`) what it was before, whether extraction succeeds or
fails. -/
theorem extraction_stays_inside_when_entries_do (env : Env) (w : World) (src : GoString)
    (dest q : Path) (hq : ¬ dest <+: q) :
    (∀ files : List ZipEntry, env.zipFile src = Except.ok files →
        (MkdirTemp env (w.log (Call.unzip src)) "logs_unzip_".toList).2 = Except.ok dest →
        (∀ f ∈ files, dest <+: Join dest f.name) →
        FS.stat (unzip env w src).1.fs q = FS.stat w.fs q)
      ∧ (∀ tf : TarFile, env.tarFile src = Except.ok tf →
        (MkdirTemp env (w.log (Call.untar src)) "logs_untar_".toList).2 = Except.ok dest →
        (∀ h ∈ tf.entries, dest <+: Join dest h.name) →
        FS.stat (untar env w src).1.fs q = FS.stat w.fs q) := by
  constructor
  · intro files hz hm hin
    unfold unzip
    rw [hz]
    simp only
    rcases hmt : MkdirTemp env (w.log (Call.unzip src)) "logs_unzip_".toList with ⟨w1, e | d⟩
    · rw [hmt] at hm; simp at hm
    · rw [hmt] at hm
      simp only [Except.ok.injEq] at hm
      subst hm
      obtain ⟨hw1, hn, hp⟩ := MkdirTemp_ok hmt
      obtain ⟨k1, k2, k3⟩ := keeps_after_MkdirTemp hn hp
      have hfs1 : w1.fs = (d, Node.dir) :: w.fs := by rw [hw1]; rfl
      have hk := keeps_unzipLoop env d files w1 (by rw [hfs1]; exact k1)
        (by rw [hfs1]; exact k2) hin
      have : FS.stat (unzipLoop env d files w1).1.fs q = FS.stat w.fs q := by
        rw [hk.2 q hq, hfs1]; exact k3 q hq
      simp only
      split <;> (next he => simp only [he] at this; exact this)
  · intro tf hz hm hin
    unfold untar
    rw [hz]
    simp only
    rcases hmt : MkdirTemp env (w.log (Call.untar src)) "logs_untar_".toList with ⟨w1, e | d⟩
    · rw [hmt] at hm; simp at hm
    · rw [hmt] at hm
      simp only [Except.ok.injEq] at hm
      subst hm
      obtain ⟨hw1, hn, hp⟩ := MkdirTemp_ok hmt
      obtain ⟨k1, k2, k3⟩ := keeps_after_MkdirTemp hn hp
      have hfs1 : w1.fs = (d, Node.dir) :: w.fs := by rw [hw1]; rfl
      have hk := keeps_untarLoop env d tf.tail tf.entries w1 (by rw [hfs1]; exact k1)
        (by rw [hfs1]; exact k2) hin
      have : FS.stat (untarLoop env d tf.tail tf.entries w1).1.fs q = FS.stat w.fs q := by
        rw [hk.2 q hq, hfs1]; exact k3 q hq
      simp only
      split <;> (next he => simp only [he] at this; exact this)

/-! ## What extraction materializes -/

theorem mem_of_lookup {fs : FS} {p : Path} {n : Node} (h : fs.lookup p = some n) :
    (p, n) ∈ fs := by
  induction fs with
  | nil => simp [List.lookup] at h
  | cons x rest ih =>
    obtain ⟨k, v⟩ := x
    by_cases hk : p = k
    · subst hk
      simp [List.lookup] at h
      subst h
      exact List.mem_cons_self _ _
    · have hb : (p == k) = false := by simpa using hk
      simp only [List.lookup, hb] at h
      exact List.mem_cons_of_mem _ (ih h)

/-- In a well-formed file system every ancestor of an existing path exists. -/
theorem wf_ancestors (fs : FS) (hwf : FS.WF fs) (q : Path) (hq : FS.stat fs q ≠ none)
    (d : Path) (hd : d <+: q) : FS.stat fs d ≠ none := by
  induction q using List.reverseRecOn generalizing d with
  | nil =>
    rw [List.prefix_nil] at hd
    subst hd
    simp [FS.stat]
  | append_singleton l a ih =>
    rw [List.prefix_concat_iff] at hd
    rcases hd with hd | hd
    · rw [hd]; exact hq
    · have hl : FS.stat fs l = some Node.dir := by
        have hne : l ++ [a] ≠ [] := by simp
        unfold FS.stat at hq
        rw [if_neg hne] at hq
        obtain ⟨n, hn⟩ := Option.ne_none_iff_exists'.mp hq
        have := hwf _ (mem_of_lookup hn)
        simpa using this
      exact ih (by rw [hl]; simp) d hd

theorem wf_fresh (fs : FS) (hwf : FS.WF fs) (d q : Path) (hd : FS.stat fs d = none)
    (hq : d <+: q) : FS.stat fs q = none := by
  by_contra h
  exact wf_ancestors fs hwf q h d hq hd

theorem MkdirAll_err {env : Env} {w w1 : World} {p : Path} {e : Err}
    (h : MkdirAll env w p = (w1, some e)) : w1.failures = w.failures + 1 := by
  rw [MkdirAll_eq] at h
  simp only [Prod.mk.injEq] at h
  obtain ⟨h1, h2⟩ := h
  subst h1
  simp [h2]

theorem MkdirAll_ok {env : Env} {w w1 : World} {p : Path}
    (h : MkdirAll env w p = (w1, none)) :
    w1.failures = w.failures ∧ w1.fs = (mkdirAllRev env p.reverse w.fs).1 := by
  rw [MkdirAll_eq] at h
  simp only [Prod.mk.injEq] at h
  obtain ⟨h1, h2⟩ := h
  subst h1
  simp [h2]

/-- Materializing a file without failure: the file holds the entry's bytes and
every other file is as before. -/
theorem file_steps_content {env : Env} {w w1 w2 w3 : World} {p : Path} {body : GoString}
    {r : Option Err}
    (h1 : MkdirAll env w (Dir p) = (w1, none)) (h2 : OpenFile env w1 p = (w2, none))
    (h3 : Copy env w2 p body r = (w3, none)) :
    w3.failures = w.failures
      ∧ ∀ (q : Path) (data : GoString),
          FS.stat w3.fs q = some (Node.file data)
            ↔ (q = p ∧ data = body) ∨ (q ≠ p ∧ FS.stat w.fs q = some (Node.file data)) := by
  obtain ⟨hf1, hfs1⟩ := MkdirAll_ok h1
  obtain ⟨hw2, hnd⟩ := OpenFile_ok h2
  have hw3 := Copy_ok h3
  have hpne : p ≠ [] := by
    intro h; subst h; simp [FS.stat] at hnd
  refine ⟨by rw [hw3, hw2]; exact hf1, fun q data => ?_⟩
  rw [hw3, hw2]
  simp only
  by_cases hq : q = p
  · subst hq
    rw [stat_cons_self _ _ _ hpne]
    simp [eq_comm]
  · rw [stat_cons_ne _ _ _ _ hq, stat_cons_ne _ _ _ _ hq, hfs1, mkdirAllRev_files]
    simp [hq]

theorem not_isDir_isRegular {f : ZipEntry} (hk : f.kind = Kind.dir ∨ f.kind = Kind.regular)
    (h : ¬ f.IsDir = true) : f.isRegular := by
  unfold ZipEntry.IsDir at h
  simp only [Bool.or_eq_true, decide_eq_true_eq, not_or] at h
  rcases hk with hk | hk
  · exact absurd hk h.1
  · exact ⟨hk, h.2⟩

theorem isDir_not_isRegular {f : ZipEntry} (h : f.IsDir = true) : ¬ f.isRegular := by
  unfold ZipEntry.IsDir at h
  simp only [Bool.or_eq_true, decide_eq_true_eq] at h
  rintro ⟨h1, h2⟩
  rcases h with h | h
  · rw [h1] at h; exact absurd h (by decide)
  · exact h2 h

theorem unzipLoop_files (env : Env) (dest : Path) (files : List ZipEntry) (w : World)
    (hkind : ∀ f ∈ files, f.kind = Kind.dir ∨ f.kind = Kind.regular)
    (hread : ∀ f ∈ files, f.openErr = none ∧ f.readErr = none)
    (hnofail : (unzipLoop env dest files w).1.failures = w.failures) :
    (unzipLoop env dest files w).2 = none
      ∧ ∀ (q : Path) (data : GoString),
          FS.stat (unzipLoop env dest files w).1.fs q = some (Node.file data)
            ↔ zipContent dest files q = some data
              ∨ (zipContent dest files q = none ∧ FS.stat w.fs q = some (Node.file data)) := by
  induction files generalizing w with
  | nil => simp [unzipLoop, zipContent]
  | cons f rest ih =>
    have hk := hkind f (List.mem_cons_self _ _)
    obtain ⟨ho, hr⟩ := hread f (List.mem_cons_self _ _)
    have hkrest : ∀ g ∈ rest, g.kind = Kind.dir ∨ g.kind = Kind.regular :=
      fun g hg => hkind g (List.mem_cons_of_mem _ hg)
    have hrrest : ∀ g ∈ rest, g.openErr = none ∧ g.readErr = none :=
      fun g hg => hread g (List.mem_cons_of_mem _ hg)
    unfold unzipLoop at hnofail ⊢
    by_cases hd : f.IsDir = true
    · rw [if_pos hd] at hnofail ⊢
      have hmono := (extends_unzipLoop env dest rest (MkdirAll env w (Join dest f.name)).1).2.2
      have hge := (extends_MkdirAll env w (Join dest f.name)).2.2
      have hn2 : (unzipLoop env dest rest (MkdirAll env w (Join dest f.name)).1).1.failures
          = (MkdirAll env w (Join dest f.name)).1.failures := by omega
      obtain ⟨i1, i2⟩ := ih _ hkrest hrrest hn2
      refine ⟨i1, fun q data => ?_⟩
      rw [i2 q data]
      have hfiles : FS.stat (MkdirAll env w (Join dest f.name)).1.fs q = some (Node.file data)
          ↔ FS.stat w.fs q = some (Node.file data) := by
        rw [MkdirAll_eq]; exact mkdirAllRev_files env _ w.fs q data
      rw [hfiles]
      simp only [zipContent]
      cases zipContent dest rest q with
      | some b => simp
      | none => simp [isDir_not_isRegular hd]
    · rw [if_neg hd] at hnofail ⊢
      have hreg := not_isDir_isRegular hk hd
      rcases h1 : MkdirAll env w (Dir (Join dest f.name)) with ⟨w1, _ | e⟩
      · rw [h1] at hnofail
        simp only at hnofail ⊢
        rcases h2 : OpenFile env w1 (Join dest f.name) with ⟨w2, _ | e⟩
        · rw [h2] at hnofail
          simp only [ho] at hnofail ⊢
          rcases h3 : Copy env w2 (Join dest f.name) f.body f.readErr with ⟨w3, _ | e⟩
          · rw [h3] at hnofail
            simp only at hnofail ⊢
            obtain ⟨hf3, hc⟩ := file_steps_content h1 h2 h3
            obtain ⟨i1, i2⟩ := ih w3 hkrest hrrest (by rw [hnofail, hf3])
            refine ⟨i1, fun q data => ?_⟩
            rw [i2 q data, hc q data]
            simp only [zipContent]
            cases zipContent dest rest q with
            | some b => simp
            | none =>
              by_cases hq : q = Join dest f.name
              · simp [hreg, hq, eq_comm]
              · simp [hq, Ne.symm hq]
          · rw [h3] at hnofail
            simp only at hnofail
            exfalso
            have hf1 := (MkdirAll_ok h1).1
            have hf2 := (OpenFile_ok h2).1
            rcases (Copy_err h3).2 with h | ⟨h, _⟩
            · rw [hf2] at h; simp only at h; omega
            · rw [hr] at h; simp at h
        · rw [h2] at hnofail
          simp only at hnofail
          exfalso
          have hf1 := (MkdirAll_ok h1).1
          have := (OpenFile_err h2).2
          omega
      · rw [h1] at hnofail
        simp only at hnofail
        exfalso
        have := MkdirAll_err h1
        omega

theorem untarLoop_files (env : Env) (dest : Path) (tail : Option Err) (entries : List TarEntry)
    (w : World)
    (hkind : ∀ h ∈ entries, h.typeflag = TypeDir ∨ h.typeflag = TypeReg)
    (hread : ∀ h ∈ entries, h.readErr = none)
    (hnofail : (untarLoop env dest tail entries w).1.failures = w.failures) :
    (untarLoop env dest tail entries w).2 = tail
      ∧ ∀ (q : Path) (data : GoString),
          FS.stat (untarLoop env dest tail entries w).1.fs q = some (Node.file data)
            ↔ tarContent dest entries q = some data
              ∨ (tarContent dest entries q = none
                  ∧ FS.stat w.fs q = some (Node.file data)) := by
  induction entries generalizing w with
  | nil => simp [untarLoop, tarContent]
  | cons f rest ih =>
    have hk := hkind f (List.mem_cons_self _ _)
    have hr := hread f (List.mem_cons_self _ _)
    have hkrest : ∀ g ∈ rest, g.typeflag = TypeDir ∨ g.typeflag = TypeReg :=
      fun g hg => hkind g (List.mem_cons_of_mem _ hg)
    have hrrest : ∀ g ∈ rest, g.readErr = none :=
      fun g hg => hread g (List.mem_cons_of_mem _ hg)
    have hdr : TypeDir ≠ TypeReg := by decide
    unfold untarLoop at hnofail ⊢
    by_cases hd : f.typeflag = TypeDir
    · rw [if_pos hd] at hnofail ⊢
      have hnr : ¬ f.typeflag = TypeReg := by rw [hd]; exact hdr
      rcases h1 : MkdirAll env w (Join dest f.name) with ⟨w1, _ | e⟩
      · rw [h1] at hnofail
        simp only at hnofail ⊢
        obtain ⟨hf1, hfs1⟩ := MkdirAll_ok h1
        obtain ⟨i1, i2⟩ := ih w1 hkrest hrrest (by rw [hnofail, hf1])
        refine ⟨i1, fun q data => ?_⟩
        rw [i2 q data, hfs1, mkdirAllRev_files]
        simp only [tarContent]
        cases tarContent dest rest q with
        | some b => simp
        | none => simp [hnr]
      · rw [h1] at hnofail
        simp only at hnofail
        exfalso
        have := MkdirAll_err h1
        omega
    · rw [if_neg hd] at hnofail ⊢
      have hreg : f.typeflag = TypeReg := by
        rcases hk with hk | hk
        · exact absurd hk hd
        · exact hk
      rw [if_pos hreg] at hnofail ⊢
      rcases h1 : MkdirAll env w (Dir (Join dest f.name)) with ⟨w1, _ | e⟩
      · rw [h1] at hnofail
        simp only at hnofail ⊢
        rcases h2 : OpenFile env w1 (Join dest f.name) with ⟨w2, _ | e⟩
        · rw [h2] at hnofail
          simp only at hnofail ⊢
          rcases h3 : Copy env w2 (Join dest f.name) f.body f.readErr with ⟨w3, _ | e⟩
          · rw [h3] at hnofail
            simp only at hnofail ⊢
            obtain ⟨hf3, hc⟩ := file_steps_content h1 h2 h3
            obtain ⟨i1, i2⟩ := ih w3 hkrest hrrest (by rw [hnofail, hf3])
            refine ⟨i1, fun q data => ?_⟩
            rw [i2 q data, hc q data]
            simp only [tarContent]
            cases tarContent dest rest q with
            | some b => simp
            | none =>
              by_cases hq : q = Join dest f.name
              · simp [hreg, hq, eq_comm]
              · simp [hq, Ne.symm hq]
          · rw [h3] at hnofail
            simp only at hnofail
            exfalso
            have hf1 := (MkdirAll_ok h1).1
            have hf2 := (OpenFile_ok h2).1
            rcases (Copy_err h3).2 with h | ⟨h, _⟩
            · rw [hf2] at h; simp only at h; omega
            · rw [hr] at h; simp at h
        · rw [h2] at hnofail
          simp only at hnofail
          exfalso
          have hf1 := (MkdirAll_ok h1).1
          have := (OpenFile_err h2).2
          omega
      · rw [h1] at hnofail
        simp only at hnofail
        exfalso
        have := MkdirAll_err h1
        omega

theorem zipContent_some {dest : Path} {files : List ZipEntry} {p : Path} {data : GoString}
    (h : zipContent dest files p = some data) : ∃ f ∈ files, Join dest f.name = p := by
  induction files with
  | nil => simp [zipContent] at h
  | cons f rest ih =>
    simp only [zipContent] at h
    cases hc : zipContent dest rest p with
    | some b =>
      rw [hc] at h
      simp only [Option.some.injEq] at h
      subst h
      obtain ⟨g, hg, hj⟩ := ih hc
      exact ⟨g, List.mem_cons_of_mem _ hg, hj⟩
    | none =>
      rw [hc] at h
      simp only at h
      split at h
      · next hcond => exact ⟨f, List.mem_cons_self _ _, hcond.2⟩
      · simp at h

theorem tarContent_some {dest : Path} {entries : List TarEntry} {p : Path} {data : GoString}
    (h : tarContent dest entries p = some data) : ∃ f ∈ entries, Join dest f.name = p := by
  induction entries with
  | nil => simp [tarContent] at h
  | cons f rest ih =>
    simp only [tarContent] at h
    cases hc : tarContent dest rest p with
    | some b =>
      rw [hc] at h
      simp only [Option.some.injEq] at h
      subst h
      obtain ⟨g, hg, hj⟩ := ih hc
      exact ⟨g, List.mem_cons_of_mem _ hg, hj⟩
    | none =>
      rw [hc] at h
      simp only at h
      split at h
      · next hcond => exact ⟨f, List.mem_cons_self _ _, hcond.2⟩
      · simp at h

/-- Below a directory that `MkdirTemp` has just made in a well-formed file
system there is no file. -/
theorem fresh_below {fs : FS} (hwf : FS.WF fs) {dest : Path} (hn : FS.stat fs dest = none)
    (q : Path) (hq : dest <+: q) (data : GoString) :
    FS.stat ((dest, Node.dir) :: fs) q ≠ some (Node.file data) := by
  by_cases h : q = dest
  · subst h
    rw [stat_cons_self _ _ _ (stat_none_ne_nil hn)]
    simp
  · rw [stat_cons_ne _ _ _ _ h, wf_fresh fs hwf dest q hn hq]
    simp

/-- C6.  In a well-formed file system, for a ZIP archive (a TAR stream ending
in a clean end of file) whose entries are only directories and regular files,
each readable in full and with a name that stays inside the root it is joined
to: if no file-system operation fails during extraction, then extraction
returns a fresh directory `dest`, and the regular files under `dest` are
exactly the joined paths of the regular-file entries, each holding the bytes
of its entry (of the last entry with that path, when several have it). -/
theorem extraction_materializes_entries (env : Env) (w : World) (src : GoString)
    (hwf : FS.WF w.fs) :
    (∀ files : List ZipEntry, env.zipFile src = Except.ok files →
        (∀ f ∈ files, (f.kind = Kind.dir ∨ f.kind = Kind.regular)
          ∧ f.openErr = none ∧ f.readErr = none ∧ ∀ d : Path, d <+: Join d f.name) →
        (unzip env w src).1.failures = w.failures →
        ∃ dest : Path, (unzip env w src).2 = Except.ok dest ∧ FS.stat w.fs dest = none
          ∧ ∀ (p : Path) (data : GoString),
              (dest <+: p ∧ FS.stat (unzip env w src).1.fs p = some (Node.file data))
                ↔ zipContent dest files p = some data)
      ∧ (∀ tf : TarFile, env.tarFile src = Except.ok tf → tf.tail = none →
        (∀ h ∈ tf.entries, (h.typeflag = TypeDir ∨ h.typeflag = TypeReg)
          ∧ h.readErr = none ∧ ∀ d : Path, d <+: Join d h.name) →
        (untar env w src).1.failures = w.failures →
        ∃ dest : Path, (untar env w src).2 = Except.ok dest ∧ FS.stat w.fs dest = none
          ∧ ∀ (p : Path) (data : GoString),
              (dest <+: p ∧ FS.stat (untar env w src).1.fs p = some (Node.file data))
                ↔ tarContent dest tf.entries p = some data) := by
  constructor
  · intro files hz hfiles hnofail
    unfold unzip at hnofail ⊢
    rw [hz] at hnofail ⊢
    simp only at hnofail ⊢
    rcases hmt : MkdirTemp env (w.log (Call.unzip src)) "logs_unzip_".toList with ⟨w1, e | d⟩
    · rw [hmt] at hnofail
      simp only at hnofail
      have := (MkdirTemp_err hmt).2
      simp only [World.log] at this
      omega
    · rw [hmt] at hnofail
      simp only at hnofail ⊢
      obtain ⟨hw1, hn, _⟩ := MkdirTemp_ok hmt
      have hfs1 : w1.fs = (d, Node.dir) :: w.fs := by rw [hw1]; rfl
      have hf1 : w1.failures = w.failures := by rw [hw1]; rfl
      have hloop : (unzipLoop env d files w1).1.failures = w1.failures := by
        rw [hf1]
        rcases hl : unzipLoop env d files w1 with ⟨w2, _ | e⟩
        · rw [hl] at hnofail; exact hnofail
        · rw [hl] at hnofail; exact hnofail
      obtain ⟨i1, i2⟩ := unzipLoop_files env d files w1 (fun f hf => (hfiles f hf).1)
        (fun f hf => ⟨(hfiles f hf).2.1, (hfiles f hf).2.2.1⟩) hloop
      rcases hl : unzipLoop env d files w1 with ⟨w2, _ | e⟩
      · simp only
        rw [hl] at i2
        simp only at i2
        refine ⟨d, rfl, hn, fun p data => ?_⟩
        rw [i2 p data, hfs1]
        constructor
        · rintro ⟨hp, h | ⟨_, h⟩⟩
          · exact h
          · exact absurd h (fresh_below hwf hn p hp data)
        · intro h
          obtain ⟨f, hf, hj⟩ := zipContent_some h
          exact ⟨hj ▸ (hfiles f hf).2.2.2 d, Or.inl h⟩
      · rw [hl] at i1; simp at i1
  · intro tf hz htail hentries hnofail
    unfold untar at hnofail ⊢
    rw [hz] at hnofail ⊢
    simp only at hnofail ⊢
    rcases hmt : MkdirTemp env (w.log (Call.untar src)) "logs_untar_".toList with ⟨w1, e | d⟩
    · rw [hmt] at hnofail
      simp only at hnofail
      have := (MkdirTemp_err hmt).2
      simp only [World.log] at this
      omega
    · rw [hmt] at hnofail
      simp only at hnofail ⊢
      obtain ⟨hw1, hn, _⟩ := MkdirTemp_ok hmt
      have hfs1 : w1.fs = (d, Node.dir) :: w.fs := by rw [hw1]; rfl
      have hf1 : w1.failures = w.failures := by rw [hw1]; rfl
      have hloop : (untarLoop env d tf.tail tf.entries w1).1.failures = w1.failures := by
        rw [hf1]
        rcases hl : untarLoop env d tf.tail tf.entries w1 with ⟨w2, _ | e⟩
        · rw [hl] at hnofail; exact hnofail
        · rw [hl] at hnofail; exact hnofail
      obtain ⟨i1, i2⟩ := untarLoop_files env d tf.tail tf.entries w1
        (fun f hf => (hentries f hf).1) (fun f hf => (hentries f hf).2.1) hloop
      rcases hl : untarLoop env d tf.tail tf.entries w1 with ⟨w2, _ | e⟩
      · simp only
        rw [hl] at i2
        simp only at i2
        refine ⟨d, rfl, hn, fun p data => ?_⟩
        rw [i2 p data, hfs1]
        constructor
        · rintro ⟨hp, h | ⟨_, h⟩⟩
          · exact h
          · exact absurd h (fresh_below hwf hn p hp data)
        · intro h
          obtain ⟨f, hf, hj⟩ := tarContent_some h
          exact ⟨hj ▸ (hentries f hf).2.2 d, Or.inl h⟩
      · rw [hl, htail] at i1; simp at i1

/-! ## The program at concrete inputs -/

/-- C1, counterexample.  The archive with the single entry `../evil.txt`:
`unzip` and `untar` both succeed, and the file `/tmp/evil.txt`, outside the
destination root and absent before, holds the entry's bytes afterwards. -/
theorem extraction_writes_outside_destination :
    (unzip (zipEnv evilZip) emptyWorld "x.zip".toList).2 = Except.ok unzipDest
      ∧ Join unzipDest "../evil.txt".toList = ["tmp".toList, "evil.txt".toList]
      ∧ (unzipDest.isPrefixOf ["tmp".toList, "evil.txt".toList]) = false
      ∧ FS.stat emptyWorld.fs ["tmp".toList, "evil.txt".toList] = none
      ∧ FS.stat (unzip (zipEnv evilZip) emptyWorld "x.zip".toList).1.fs
          ["tmp".toList, "evil.txt".toList] = some (Node.file "pwned".toList)
      ∧ (untar (tarEnv evilTar) emptyWorld "x.tar".toList).2 = Except.ok untarDest
      ∧ (untarDest.isPrefixOf ["tmp".toList, "evil.txt".toList]) = false
      ∧ FS.stat (untar (tarEnv evilTar) emptyWorld "x.tar".toList).1.fs
          ["tmp".toList, "evil.txt".toList] = some (Node.file "pwned".toList) := by
  decide

/-- C1, witness: the archives of scenarios A and B leave `/tmp` itself as it
was. -/
theorem extraction_stays_inside_when_entries_do_witness :
    FS.stat (unzip (zipEnv scenarioZip) emptyWorld "x.zip".toList).1.fs ["tmp".toList]
        = FS.stat emptyWorld.fs ["tmp".toList]
      ∧ FS.stat (untar (tarEnv scenarioTar) emptyWorld "x.tar".toList).1.fs ["tmp".toList]
        = FS.stat emptyWorld.fs ["tmp".toList] :=
  ⟨(extraction_stays_inside_when_entries_do (zipEnv scenarioZip) emptyWorld "x.zip".toList
      unzipDest ["tmp".toList] (by decide)).1 scenarioZip rfl (by decide) (by decide),
   (extraction_stays_inside_when_entries_do (tarEnv scenarioTar) emptyWorld "x.tar".toList
      untarDest ["tmp".toList] (by decide)).2 { entries := scenarioTar, tail := none } rfl
      (by decide) (by decide)⟩

/-- C4, witness: a directory named `x.log` and a file `notes.md` are not scanned,
the file `f.log` is. -/
theorem processFile_scans_only_log_and_txt_files_witness :
    processFile plainEnv emptyWorld
        { path := ["d".toList, "x.log".toList], info := { isDir := true }, err := none }
        = (emptyWorld, none)
      ∧ processFile plainEnv emptyWorld
          { path := ["d".toList, "notes.md".toList], info := { isDir := false }, err := none }
        = (emptyWorld, none)
      ∧ (processFile plainEnv (fileWorld "an Error\n".toList)
          { path := ["f.log".toList], info := { isDir := false }, err := none }
          = parseFile plainEnv (fileWorld "an Error\n".toList) ["f.log".toList]
        ∧ (processFile plainEnv (fileWorld "an Error\n".toList)
            { path := ["f.log".toList], info := { isDir := false }, err := none }).1.calls
          = (fileWorld "an Error\n".toList).calls ++ [Call.fileOpen ["f.log".toList]]) :=
  ⟨(processFile_scans_only_log_and_txt_files plainEnv emptyWorld
      { path := ["d".toList, "x.log".toList], info := { isDir := true }, err := none } rfl).2
      (by decide),
   (processFile_scans_only_log_and_txt_files plainEnv emptyWorld
      { path := ["d".toList, "notes.md".toList], info := { isDir := false }, err := none }
      rfl).2 (by decide),
   (processFile_scans_only_log_and_txt_files plainEnv (fileWorld "an Error\n".toList)
      { path := ["f.log".toList], info := { isDir := false }, err := none } rfl).1
      (by decide)⟩

/-- C5, at the failing input.  The archive holds the file `a` and then the file
`a/b`.  `unzip` makes the temporary directory, writes `a`, fails on `a/b`;
`main` prints the error and returns before its deferred `RemoveAll` is set up:
the temporary directory, absent before, is still there afterwards. -/
theorem main_leaves_temp_dir_when_extraction_fails :
    FS.stat emptyWorld.fs unzipDest = none
      ∧ (unzip (zipEnv blockedFileZip) emptyWorld "x.zip".toList).2 = Except.error Err.notDir
      ∧ (main (zipEnv blockedFileZip) emptyWorld ["prog".toList, "x.zip".toList]).out
          = ["unzip error: failed\n".toList]
      ∧ FS.stat (main (zipEnv blockedFileZip) emptyWorld ["prog".toList, "x.zip".toList]).fs
          unzipDest = some Node.dir
      ∧ FS.stat (main (zipEnv blockedFileZip) emptyWorld ["prog".toList, "x.zip".toList]).fs
          (unzipDest ++ ["a".toList]) = some (Node.file "x".toList) := by
  decide

/-- C7, at the failing input.  `unzip` materializes a symbolic-link entry as a
regular file holding the link target; `untar` skips the same entry. -/
theorem unzip_writes_symlink_entry_as_file :
    (unzip (zipEnv symlinkZip) emptyWorld "x.zip".toList).2 = Except.ok unzipDest
      ∧ FS.stat (unzip (zipEnv symlinkZip) emptyWorld "x.zip".toList).1.fs
          (unzipDest ++ ["link".toList]) = some (Node.file "target".toList)
      ∧ (untar (tarEnv symlinkTar) emptyWorld "x.tar".toList).2 = Except.ok untarDest
      ∧ FS.stat (untar (tarEnv symlinkTar) emptyWorld "x.tar".toList).1.fs
          (untarDest ++ ["link".toList]) = none := by
  decide

/-- C9, at the failing input.  The archive holds the file `a` and then the
directory `a/b/`.  In `unzip` the `MkdirAll` for the directory entry fails with
`ENOTDIR`, yet `unzip` returns success and the directory does not exist;
`untar` on the same entries returns the error. -/
theorem unzip_ignores_failed_directory_creation :
    (MkdirAll (zipEnv blockedDirZip)
        (unzipLoop (zipEnv blockedDirZip) unzipDest [zipFileEntry "a" "x"]
          (MkdirTemp (zipEnv blockedDirZip) (emptyWorld.log (Call.unzip "x.zip".toList))
            "logs_unzip_".toList).1).1
        (Join unzipDest "a/b/".toList)).2 = some Err.notDir
      ∧ (unzip (zipEnv blockedDirZip) emptyWorld "x.zip".toList).2 = Except.ok unzipDest
      ∧ (unzip (zipEnv blockedDirZip) emptyWorld "x.zip".toList).1.failures = 1
      ∧ FS.stat (unzip (zipEnv blockedDirZip) emptyWorld "x.zip".toList).1.fs
          (unzipDest ++ ["a".toList, "b".toList]) = none
      ∧ (untar (tarEnv blockedDirTar) emptyWorld "x.tar".toList).2
          = Except.error Err.notDir := by
  decide

theorem join_inside_scenario (d : Path) : d <+: Join d "a/b.log".toList := by
  have hs : splitSlash "a/b.log".toList = ["a".toList, "b.log".toList] := by decide
  unfold Join
  rw [hs]
  have h1 : cleanStep d "a".toList = d ++ ["a".toList] := by
    unfold cleanStep
    rw [if_neg (by decide), if_neg (by decide)]
  have h2 : cleanStep (d ++ ["a".toList]) "b.log".toList
      = d ++ ["a".toList] ++ ["b.log".toList] := by
    unfold cleanStep
    rw [if_neg (by decide), if_neg (by decide)]
  simp only [List.foldl, h1, h2, List.append_assoc]
  exact List.prefix_append _ _

theorem join_inside_single (d : Path) (name seg : GoString)
    (hs : splitSlash name = [seg]) (h1 : ¬ (seg = [] ∨ seg = ['.'])) (h2 : seg ≠ ['.', '.']) :
    d <+: Join d name := by
  unfold Join
  rw [hs]
  simp only [List.foldl, cleanStep, if_neg h1, if_neg h2]
  exact List.prefix_append _ _

/-- C6, witness: the archives of scenarios A and B. -/
theorem extraction_materializes_entries_witness :
    (∃ dest : Path, (unzip (zipEnv scenarioZip) emptyWorld "x.zip".toList).2 = Except.ok dest
      ∧ FS.stat emptyWorld.fs dest = none
      ∧ ∀ (p : Path) (data : GoString),
          (dest <+: p
            ∧ FS.stat (unzip (zipEnv scenarioZip) emptyWorld "x.zip".toList).1.fs p
                = some (Node.file data))
            ↔ zipContent dest scenarioZip p = some data)
      ∧ (∃ dest : Path, (untar (tarEnv scenarioTar) emptyWorld "x.tar".toList).2 = Except.ok dest
        ∧ FS.stat emptyWorld.fs dest = none
        ∧ ∀ (p : Path) (data : GoString),
            (dest <+: p
              ∧ FS.stat (untar (tarEnv scenarioTar) emptyWorld "x.tar".toList).1.fs p
                  = some (Node.file data))
              ↔ tarContent dest scenarioTar p = some data) :=
  ⟨(extraction_materializes_entries (zipEnv scenarioZip) emptyWorld "x.zip".toList
      (by decide)).1 scenarioZip rfl
      (by
        intro f hf
        simp only [scenarioZip, List.mem_singleton] at hf
        subst hf
        exact ⟨by decide, rfl, rfl, join_inside_scenario⟩)
      (by decide),
   (extraction_materializes_entries (tarEnv scenarioTar) emptyWorld "x.tar".toList
      (by decide)).2 { entries := scenarioTar, tail := none } rfl rfl
      (by
        intro h hh
        simp only [scenarioTar, List.mem_cons, List.mem_singleton, List.not_mem_nil,
          or_false] at hh
        rcases hh with hh | hh
        · subst hh
          exact ⟨by decide, rfl, fun d =>
            join_inside_single d _ "app.txt".toList (by decide) (by decide) (by decide)⟩
        · subst hh
          exact ⟨by decide, rfl, fun d =>
            join_inside_single d _ "app.bin".toList (by decide) (by decide) (by decide)⟩)
      (by decide)⟩

/-- C8, witness: `/x` holds `a.log`, `b.log`, `c.log`, and the walk fails on
`b.log` for each of the three causes in turn: `os.Lstat` fails on it, it cannot
be opened, and reading it fails after its first line. -/
theorem walk_stops_at_first_failure_witness :
    (scanExtracted hiddenEnv threeLogsWorld ["x".toList]).out
        = ["Extracted directory: /x\n".toList, "[/x/a.log:1]: error a\n".toList,
           "Traversal error: failed\n".toList]
      ∧ (scanExtracted lockedEnv threeLogsWorld ["x".toList]).out
        = ["Extracted directory: /x\n".toList, "[/x/a.log:1]: error a\n".toList,
           "Traversal error: failed\n".toList]
      ∧ (scanExtracted brokenReadEnv threeLogsWorld ["x".toList]).out
        = ["Extracted directory: /x\n".toList, "[/x/a.log:1]: error a\n".toList,
           "[/x/b.log:1]: error b\n".toList, "Traversal error: failed\n".toList] :=
  ⟨(walk_stops_at_first_failure hiddenEnv threeLogsWorld ["x".toList] lockedBefore hiddenNode
      [lastNode] (visitAll hiddenEnv lockedBefore lockedStart).1 (Err.other 5)
      (by decide) (by decide) (by decide) (Or.inl rfl)).2.2.2.1.trans (by decide),
   (walk_stops_at_first_failure lockedEnv threeLogsWorld ["x".toList] lockedBefore lockedNode
      [lastNode] (visitAll lockedEnv lockedBefore lockedStart).1 (Err.other 13)
      (by decide) (by decide) (by decide)
      (Or.inr (Or.inl ⟨rfl, by decide, Or.inl rfl⟩))).2.2.2.1.trans (by decide),
   (walk_stops_at_first_failure brokenReadEnv threeLogsWorld ["x".toList] lockedBefore
      lockedNode [lastNode] (visitAll brokenReadEnv lockedBefore lockedStart).1 (Err.other 5)
      (by decide) (by decide) (by decide)
      (Or.inr (Or.inr ⟨rfl, by decide, rfl, "error b\n".toList, some (Err.other 5),
        by decide, by decide⟩))).2.2.2.1.trans (by decide)⟩

/-- C3, witness: the archives of scenarios A and B, and a path ending in `.ZIP`. -/
theorem main_dispatches_by_extension_witness :
    main (zipEnv scenarioZip) emptyWorld ["prog".toList, "x.zip".toList]
        = (match unzip (zipEnv scenarioZip) emptyWorld "x.zip".toList with
          | (w1, Except.error e) =>
            w1.print ("unzip error: ".toList ++ (zipEnv scenarioZip).errorText e ++ "\n".toList)
          | (w1, Except.ok destDir) => scanExtracted (zipEnv scenarioZip) w1 destDir)
      ∧ main (tarEnv scenarioTar) emptyWorld ["prog".toList, "x.tar".toList]
        = (match untar (tarEnv scenarioTar) emptyWorld "x.tar".toList with
          | (w1, Except.error e) =>
            w1.print ("untar error: ".toList ++ (tarEnv scenarioTar).errorText e ++ "\n".toList)
          | (w1, Except.ok destDir) => scanExtracted (tarEnv scenarioTar) w1 destDir)
      ∧ main plainEnv emptyWorld ["prog".toList, "x.ZIP".toList]
        = { emptyWorld with
            out := emptyWorld.out
              ++ ["Unsupported file type. Only .zip and .tar supported.\n".toList] }
      ∧ (main (zipEnv scenarioZip) emptyWorld ["prog".toList, "x.zip".toList]).calls.filter
          isExtractorCall = [Call.unzip "x.zip".toList]
      ∧ (main (tarEnv scenarioTar) emptyWorld ["prog".toList, "x.tar".toList]).calls.filter
          isExtractorCall = [Call.untar "x.tar".toList] :=
  ⟨(main_dispatches_by_extension (zipEnv scenarioZip) emptyWorld "prog".toList "x.zip".toList
      []).1 (by decide),
   (main_dispatches_by_extension (tarEnv scenarioTar) emptyWorld "prog".toList "x.tar".toList
      []).2.1 (by decide) (by decide),
   (main_dispatches_by_extension plainEnv emptyWorld "prog".toList "x.ZIP".toList
      []).2.2.1 (by decide) (by decide),
   by decide, by decide⟩

/-! ## Further properties -/

theorem untarLoop_reports_failures (env : Env) (dest : Path) (tail : Option Err)
    (entries : List TarEntry) (w : World)
    (h : (untarLoop env dest tail entries w).1.failures ≠ w.failures) :
    ∃ e, (untarLoop env dest tail entries w).2 = some e := by
  induction entries generalizing w with
  | nil => simp [untarLoop] at h
  | cons f rest ih =>
    unfold untarLoop at h ⊢
    split
    · next hd =>
      rw [if_pos hd] at h
      rcases h1 : MkdirAll env w (Join dest f.name) with ⟨w1, _ | e⟩
      · rw [h1] at h
        simp only at h ⊢
        exact ih w1 (by rw [(MkdirAll_ok h1).1]; exact h)
      · exact ⟨e, rfl⟩
    · next hd =>
      rw [if_neg hd] at h
      split
      · next hr =>
        rw [if_pos hr] at h
        rcases h1 : MkdirAll env w (Dir (Join dest f.name)) with ⟨w1, _ | e⟩
        · rw [h1] at h
          simp only at h ⊢
          rcases h2 : OpenFile env w1 (Join dest f.name) with ⟨w2, _ | e⟩
          · rw [h2] at h
            simp only at h ⊢
            rcases h3 : Copy env w2 (Join dest f.name) f.body f.readErr with ⟨w3, _ | e⟩
            · rw [h3] at h
              simp only at h ⊢
              exact ih w3 (by rw [(file_steps_content h1 h2 h3).1]; exact h)
            · exact ⟨e, rfl⟩
          · exact ⟨e, rfl⟩
        · exact ⟨e, rfl⟩
      · next hr =>
        rw [if_neg hr] at h
        exact ih w h

theorem unzipLoop_reports_failures (env : Env) (dest : Path) (files : List ZipEntry)
    (w : World) (hnodir : ∀ f ∈ files, f.IsDir = false)
    (h : (unzipLoop env dest files w).1.failures ≠ w.failures) :
    ∃ e, (unzipLoop env dest files w).2 = some e := by
  induction files generalizing w with
  | nil => simp [unzipLoop] at h
  | cons f rest ih =>
    have hf : ¬ f.IsDir = true := by rw [hnodir f (List.mem_cons_self _ _)]; simp
    have hrest : ∀ g ∈ rest, g.IsDir = false := fun g hg => hnodir g (List.mem_cons_of_mem _ hg)
    unfold unzipLoop at h ⊢
    rw [if_neg hf] at h ⊢
    rcases h1 : MkdirAll env w (Dir (Join dest f.name)) with ⟨w1, _ | e⟩
    · rw [h1] at h
      simp only at h ⊢
      rcases h2 : OpenFile env w1 (Join dest f.name) with ⟨w2, _ | e⟩
      · rw [h2] at h
        simp only at h ⊢
        cases ho : f.openErr with
        | some e => exact ⟨e, rfl⟩
        | none =>
          rw [ho] at h
          simp only at h ⊢
          rcases h3 : Copy env w2 (Join dest f.name) f.body f.readErr with ⟨w3, _ | e⟩
          · rw [h3] at h
            simp only at h ⊢
            exact ih w3 hrest (by rw [(file_steps_content h1 h2 h3).1]; exact h)
          · exact ⟨e, rfl⟩
      · exact ⟨e, rfl⟩
    · exact ⟨e, rfl⟩

/-- X1.  In `untar` no failed file-system operation goes unreported: if any
operation failed during the call, `untar` returns an error.  The same holds of
`unzip` on an archive without directory entries. -/
theorem extraction_reports_failed_operations (env : Env) (w : World) (src : GoString) :
    ((untar env w src).1.failures ≠ w.failures → ∃ e, (untar env w src).2 = Except.error e)
      ∧ (∀ files : List ZipEntry, env.zipFile src = Except.ok files →
          (∀ f ∈ files, f.IsDir = false) →
          (unzip env w src).1.failures ≠ w.failures →
          ∃ e, (unzip env w src).2 = Except.error e) := by
  constructor
  · intro h
    unfold untar at h ⊢
    cases hz : env.tarFile src with
    | error e => exact ⟨e, rfl⟩
    | ok tf =>
      rw [hz] at h
      simp only at h ⊢
      rcases hmt : MkdirTemp env (w.log (Call.untar src)) "logs_untar_".toList with ⟨w1, e | d⟩
      · exact ⟨e, rfl⟩
      · rw [hmt] at h
        simp only at h ⊢
        have hf1 : w1.failures = w.failures := by rw [(MkdirTemp_ok hmt).1]; rfl
        rcases hl : untarLoop env d tf.tail tf.entries w1 with ⟨w2, _ | e⟩
        · rw [hl] at h
          simp only at h
          have := untarLoop_reports_failures env d tf.tail tf.entries w1
            (by rw [hl, hf1]; exact h)
          rw [hl] at this
          simp at this
        · exact ⟨e, rfl⟩
  · intro files hz hnodir h
    unfold unzip at h ⊢
    rw [hz] at h ⊢
    simp only at h ⊢
    rcases hmt : MkdirTemp env (w.log (Call.unzip src)) "logs_unzip_".toList with ⟨w1, e | d⟩
    · exact ⟨e, rfl⟩
    · rw [hmt] at h
      simp only at h ⊢
      have hf1 : w1.failures = w.failures := by rw [(MkdirTemp_ok hmt).1]; rfl
      rcases hl : unzipLoop env d files w1 with ⟨w2, _ | e⟩
      · rw [hl] at h
        simp only at h
        have := unzipLoop_reports_failures env d files w1 hnodir (by rw [hl, hf1]; exact h)
        rw [hl] at this
        simp at this
      · exact ⟨e, rfl⟩

/-- X1, witness: the stream with the file `a` and then the directory `a/b/`. -/
theorem extraction_reports_failed_operations_witness :
    ∃ e, (untar (tarEnv blockedDirTar) emptyWorld "x.tar".toList).2 = Except.error e :=
  (extraction_reports_failed_operations (tarEnv blockedDirTar) emptyWorld "x.tar".toList).1
    (by decide)

theorem scanExtracted_fs (env : Env) (w : World) (dest : Path) :
    (scanExtracted env w dest).fs = w.fs.filter (fun x => !(dest.isPrefixOf x.1)) := by
  unfold scanExtracted
  split
  · rfl
  · have h1 := visitAll_fs env (walkVisits env w.fs dest)
      (((w.print ("Extracted directory: ".toList ++ render dest ++ "\n".toList)).log
        (Call.stat dest)).log (Call.walk dest))
    unfold Walk
    split
    · next w1 e he =>
      have hfs : ((w.print ("Extracted directory: ".toList ++ render dest ++ "\n".toList)).log
        (Call.stat dest)).fs = w.fs := rfl
      rw [hfs] at he
      rw [he] at h1
      simp only [World.log, World.print] at h1
      simp only [RemoveAll, World.log, World.setFS, World.print, h1]
    · next w1 he =>
      have hfs : ((w.print ("Extracted directory: ".toList ++ render dest ++ "\n".toList)).log
        (Call.stat dest)).fs = w.fs := rfl
      rw [hfs] at he
      rw [he] at h1
      simp only [World.log, World.print] at h1
      simp only [RemoveAll, World.log, World.setFS, h1]

theorem lookup_filter_removed (fs : FS) (dest q : Path) (h : dest <+: q) :
    (fs.filter (fun x => !(dest.isPrefixOf x.1))).lookup q = none := by
  induction fs with
  | nil => rfl
  | cons x rest ih =>
    obtain ⟨k, v⟩ := x
    by_cases hk : dest.isPrefixOf k = true
    · simp only [List.filter, hk, Bool.not_true]
      exact ih
    · have hk2 : dest.isPrefixOf k = false := Bool.eq_false_iff.mpr hk
      simp only [List.filter, hk2, Bool.not_false]
      have hne : q ≠ k := by
        intro heq
        subst heq
        exact hk (List.isPrefixOf_iff_prefix.mpr h)
      have hb : (q == k) = false := by simpa using hne
      simp only [List.lookup, hb]
      exact ih

/-- X2.  When extraction succeeded, nothing is left at or below the temporary
directory it returned once `main` is over, whether the walk succeeds or fails. -/
theorem main_removes_temp_dir_after_extraction (env : Env) (w : World)
    (prog inputFile : GoString) (rest : List GoString) (dest q : Path)
    (hq : dest <+: q) (hne : q ≠ []) :
    (Ext inputFile = ".zip".toList → (unzip env w inputFile).2 = Except.ok dest →
        FS.stat (main env w (prog :: inputFile :: rest)).fs q = none)
      ∧ (Ext inputFile ≠ ".zip".toList → Ext inputFile = ".tar".toList →
        (untar env w inputFile).2 = Except.ok dest →
        FS.stat (main env w (prog :: inputFile :: rest)).fs q = none) := by
  have key : ∀ w1 : World, FS.stat (scanExtracted env w1 dest).fs q = none := by
    intro w1
    rw [scanExtracted_fs]
    unfold FS.stat
    rw [if_neg hne]
    exact lookup_filter_removed w1.fs dest q hq
  constructor
  · intro hz hok
    unfold main
    simp only
    rw [if_pos hz]
    rcases hu : unzip env w inputFile with ⟨w1, e | d⟩
    · rw [hu] at hok; simp at hok
    · rw [hu] at hok
      simp only [Except.ok.injEq] at hok
      subst hok
      exact key w1
  · intro hz ht hok
    unfold main
    simp only
    rw [if_neg hz, if_pos ht]
    rcases hu : untar env w inputFile with ⟨w1, e | d⟩
    · rw [hu] at hok; simp at hok
    · rw [hu] at hok
      simp only [Except.ok.injEq] at hok
      subst hok
      exact key w1

/-- X2, witness: scenario A. -/
theorem main_removes_temp_dir_after_extraction_witness :
    FS.stat (main (zipEnv scenarioZip) emptyWorld ["prog".toList, "x.zip".toList]).fs
      (unzipDest ++ ["a".toList, "b.log".toList]) = none :=
  (main_removes_temp_dir_after_extraction (zipEnv scenarioZip) emptyWorld "prog".toList
    "x.zip".toList [] unzipDest (unzipDest ++ ["a".toList, "b.log".toList])
    (by decide) (by decide)).1 (by decide) (by decide)

/-- X3.  In `untar` an entry whose type flag is neither `TypeDir` nor `TypeReg`
(a symbolic link, a device, a FIFO, a hard link) has no effect at all: the
result is that of the stream without such entries. -/
theorem untar_skips_other_entries (env : Env) (dest : Path) (tail : Option Err)
    (entries : List TarEntry) (w : World) :
    untarLoop env dest tail entries w
      = untarLoop env dest tail
          (entries.filter (fun h => decide (h.typeflag = TypeDir ∨ h.typeflag = TypeReg))) w := by
  induction entries generalizing w with
  | nil => rfl
  | cons f rest ih =>
    by_cases hd : f.typeflag = TypeDir
    · have hk : decide (f.typeflag = TypeDir ∨ f.typeflag = TypeReg) = true := by simp [hd]
      simp only [List.filter, hk]
      unfold untarLoop
      rw [if_pos hd, if_pos hd]
      split
      · rfl
      · next w1 he => exact ih w1
    · by_cases hr : f.typeflag = TypeReg
      · have hk : decide (f.typeflag = TypeDir ∨ f.typeflag = TypeReg) = true := by simp [hr]
        simp only [List.filter, hk]
        unfold untarLoop
        rw [if_neg hd, if_neg hd, if_pos hr, if_pos hr]
        split
        · rfl
        · split
          · rfl
          · split
            · rfl
            · next w3 he => exact ih w3
      · have hk : decide (f.typeflag = TypeDir ∨ f.typeflag = TypeReg) = false := by
          simp [hd, hr]
        simp only [List.filter, hk]
        conv_lhs => unfold untarLoop
        rw [if_neg hd, if_neg hr]
        exact ih w

/-- X4.  The end-to-end scenarios of the specification.  A: a ZIP holding
`a/b.log` gives exactly one match, at line 2.  B: a TAR holding `app.txt` and
`app.bin` gives one match, from `app.txt` at line 2, and only `app.txt` is
opened.  C: a `.rar` path is refused at once.  In each case the file system is
afterwards what it was before. -/
theorem end_to_end_scenarios :
    (main (zipEnv scenarioZip) emptyWorld ["prog".toList, "x.zip".toList]).out
        = ["Extracted directory: /tmp/logs_unzip_0\n".toList,
           "[/tmp/logs_unzip_0/a/b.log:2]: ERROR: disk failed\n".toList]
      ∧ (main (zipEnv scenarioZip) emptyWorld ["prog".toList, "x.zip".toList]).fs
        = emptyWorld.fs
      ∧ (main (tarEnv scenarioTar) emptyWorld ["prog".toList, "x.tar".toList]).out
        = ["Extracted directory: /tmp/logs_untar_0\n".toList,
           "[/tmp/logs_untar_0/app.txt:2]: timeout waiting\n".toList]
      ∧ (main (tarEnv scenarioTar) emptyWorld ["prog".toList, "x.tar".toList]).calls.filter
          isOpenCall
        = [Call.fileOpen (untarDest ++ ["app.txt".toList])]
      ∧ (main (tarEnv scenarioTar) emptyWorld ["prog".toList, "x.tar".toList]).fs
        = emptyWorld.fs
      ∧ main plainEnv emptyWorld ["prog".toList, "x.rar".toList]
        = { emptyWorld with
            out := ["Unsupported file type. Only .zip and .tar supported.\n".toList] } := by
  decide

end LogParsing
